import Mathlib

/-!
Verification of the Chinese Postman Tour (CPT) engine of the Diblob
repository, `src/src/testing_criterions/CPT.py`.

The Python code is shallowly embedded: the graph container (`DigraphManager`,
which is not part of the sources, only its usage) is modelled from the spec as
an ordered node list plus an ordered edge list; Python dicts whose keys are
never enumerated (cost, spanning tree, delta, feasible) are modelled as
functions, with `Option` for dicts that undergo membership tests and a default
of `0` for dicts only read through `.get(key, 0)`.  Unbounded `while` loops
are given explicit fuel and return `none` when the fuel runs out or when the
Python code would raise a `KeyError`.
-/

abbrev Node := String
abbrev Edge := Node × Node

/-- Modelled from the spec: the GraphStore (`DigraphManager`, not under the
sources) provides a node set and a directed edge set (no multi-edges) with
stable enumeration order, plus per-node outgoing/incoming edge counts.  A
graph instance here also carries the `cost_function` dict and `default_cost`
of `WeightedDigraphManager.__init__` (CPT.py lines 18-23), which no CPT
computation ever mutates. -/
structure Graph where
  nodes : List Node
  edges : List Edge
  cost_function : Edge → Option Int
  default_cost : Int

/-- Mutable state of a `CPTDigraphManager` instance: `self.cost`,
`self.spanning_tree`, `self.delta`, `self.basic_cost`, `self.feasible`. -/
structure SState where
  cost : Edge → Option Int
  spanning_tree : Edge → Option Node
  delta : Node → Int
  basic_cost : Int
  feasible : Edge → Int

/-- Pointwise update of a `feasible`-style dict (total with default 0). -/
def fupdate (f : Edge → Int) (e : Edge) (v : Int) : Edge → Int :=
  fun x => if x = e then v else f x

/-- Pointwise update of a cost dict (partial: `Option`-valued). -/
def oupdate (f : Edge → Option Int) (e : Edge) (v : Option Int) : Edge → Option Int :=
  fun x => if x = e then v else f x

/-- Pointwise update of the spanning-tree dict. -/
def tupdate (f : Edge → Option Node) (e : Edge) (v : Option Node) : Edge → Option Node :=
  fun x => if x = e then v else f x

/-- Pointwise update of the delta dict (total over the node set). -/
def nupdate (f : Node → Int) (n : Node) (v : Int) : Node → Int :=
  fun x => if x = n then v else f x

/-- The list of pairs produced by `itertools.product(xs, ys)`, in order. -/
def listProd {α β : Type} : List α → List β → List (α × β)
  | [], _ => []
  | a :: as, ys => ys.map (fun b => (a, b)) ++ listProd as ys

/-- Modelled from the spec: `node.outgoing_dim()` is the node's out-degree
(number of edges whose tail is the node). -/
def outgoing_dim (G : Graph) (n : Node) : Nat :=
  (G.edges.filter (fun e => decide (e.1 = n))).length

/-- Modelled from the spec: `node.incoming_dim()` is the node's in-degree. -/
def incoming_dim (G : Graph) (n : Node) : Nat :=
  (G.edges.filter (fun e => decide (e.2 = n))).length

/-- `WeightedDigraphManager._set_cost` (CPT.py lines 31-33): the cost dict has
exactly the edges as keys, each mapped through `cost_function.get(e, default)`. -/
def set_cost (G : Graph) : Edge → Option Int :=
  fun e => if e ∈ G.edges then some ((G.cost_function e).getD G.default_cost) else none

/-- `WeightedDigraphManager._set_spanning_tree` (lines 35-36): every edge is
mapped to its own head. -/
def set_spanning_tree (G : Graph) : Edge → Option Node :=
  fun e => if e ∈ G.edges then some e.2 else none

/-- `CPTDigraphManager._set_delta` (lines 101-103). -/
def set_delta (G : Graph) : Node → Int :=
  fun n => (outgoing_dim G n : Int) - (incoming_dim G n : Int)

/-- `CPTDigraphManager._set_basic_cost` (lines 105-107). -/
def set_basic_cost (G : Graph) : Int :=
  (G.edges.map (fun e => (G.cost_function e).getD G.default_cost)).sum

/-- The state a freshly constructed `CPTDigraphManager` has (lines 91-99),
which is also the state reinstalled by the reset at the end of `compute_cpt`
(lines 297-301). -/
def initState (G : Graph) : SState :=
  { cost := set_cost G
    spanning_tree := set_spanning_tree G
    delta := set_delta G
    basic_cost := set_basic_cost G
    feasible := fun _ => 0 }

/-- Inner `for node_j in self.nodes` loop of `least_cost_paths` (lines 59-72).
The Boolean result flags the early `return` taken when a self-pair entry goes
negative.  Python indexes `cost[(node_i, node_k)]` directly; the entry is
present because the outer guard checked it and entries are never removed, so
`getD 0` reads the same value `.get` would. -/
def lcpRelax (k i : Node) : List Node → (Edge → Option Int) → (Edge → Option Node) →
    ((Edge → Option Int) × (Edge → Option Node) × Bool)
  | [], c, t => (c, t, false)
  | j :: js, c, t =>
    match c (k, j) with
    | none => lcpRelax k i js c t
    | some ckj =>
      let cik := (c (i, k)).getD 0
      let doRelax : Bool :=
        match c (i, j) with
        | none => true
        | some cij => decide (cik + ckj < cij)
      if doRelax then
        let v := cik + ckj
        let t1 := tupdate t (i, j) (t (i, k))
        let c1 := oupdate c (i, j) (some v)
        if i = j ∧ v < 0 then (c1, t1, true)
        else lcpRelax k i js c1 t1
      else lcpRelax k i js c t

/-- Outer `for node_k, node_i in product(self.nodes, self.nodes)` loop of
`least_cost_paths` (lines 57-72); the abort flag short-circuits the rest. -/
def lcpPairs : List (Node × Node) → List Node → (Edge → Option Int) → (Edge → Option Node) →
    ((Edge → Option Int) × (Edge → Option Node) × Bool)
  | [], _, c, t => (c, t, false)
  | (k, i) :: ps, nodes, c, t =>
    if (c (i, k)).isSome then
      match lcpRelax k i nodes c t with
      | (c1, t1, true) => (c1, t1, true)
      | (c1, t1, false) => lcpPairs ps nodes c1 t1
    else lcpPairs ps nodes c t

/-- `WeightedDigraphManager.least_cost_paths` (lines 51-72): Floyd-Warshall
over the partially initialized cost dict, mutating `self.cost` and
`self.spanning_tree` in place and returning early on a negative self-pair. -/
def least_cost_paths (G : Graph) (S : SState) : SState :=
  match lcpPairs (listProd G.nodes G.nodes) G.nodes S.cost S.spanning_tree with
  | (c, t, _) => { S with cost := c, spanning_tree := t }

/-- `WeightedDigraphManager.check_if_digraph_is_strongly_connected`
(lines 74-84): runs `least_cost_paths`, then tests that every ordered node
pair (self-pairs included) has a closure entry.  Returns the flag together
with the mutated state. -/
def check_if_digraph_is_strongly_connected (G : Graph) (S : SState) : Bool × SState :=
  let S1 := least_cost_paths G S
  (G.nodes.all (fun a => G.nodes.all (fun b => (S1.cost (a, b)).isSome)), S1)

/-- Recursion of `_split_nodes_based_on_delta` (lines 116-131) over the node
list: strictly negative deltas to the first list, strictly positive to the
second, preserving node order. -/
def splitGo (d : Node → Int) : List Node → List Node × List Node
  | [] => ([], [])
  | n :: ns =>
    match splitGo d ns with
    | (a, b) =>
      if d n < 0 then (n :: a, b)
      else if 0 < d n then (a, n :: b)
      else (a, b)

/-- `CPTDigraphManager._split_nodes_based_on_delta` (lines 116-131). -/
def split_nodes_based_on_delta (G : Graph) (S : SState) : List Node × List Node :=
  splitGo S.delta G.nodes

/-- The amount assigned by one iteration of `_find_feasible` (lines 145-146):
`-delta[neq] if -delta[neq] < delta[pos] else delta[pos]`. -/
def ffAmt (d : Node → Int) (neq pos : Node) : Int :=
  if -(d neq) < d pos then -(d neq) else d pos

/-- One iteration of the `product(delta_neq, delta_pos)` loop of
`_find_feasible` (lines 143-149): set the feasible entry, then
`delta[neq] += f` and `delta[pos] -= f`. -/
def ffStep (neq pos : Node) (st : (Node → Int) × (Edge → Int)) : (Node → Int) × (Edge → Int) :=
  let amt := ffAmt st.1 neq pos
  let f1 := fupdate st.2 (neq, pos) amt
  let d1 := nupdate st.1 neq (st.1 neq + amt)
  let d2 := nupdate d1 pos (d1 pos - amt)
  (d2, f1)

/-- Inner loop of `_find_feasible` over the surplus list for one deficit node. -/
def ffInner (neq : Node) : List Node → (Node → Int) × (Edge → Int) → (Node → Int) × (Edge → Int)
  | [], st => st
  | p :: ps, st => ffInner neq ps (ffStep neq p st)

/-- Outer loop of `_find_feasible` over the deficit list. -/
def ffOuter (poss : List Node) : List Node → (Node → Int) × (Edge → Int) → (Node → Int) × (Edge → Int)
  | [], st => st
  | n :: ns, st => ffOuter poss ns (ffInner n poss st)

/-- `CPTDigraphManager._find_feasible` (lines 134-149): greedy initial
duplication assignment, mutating `self.delta` and `self.feasible`. -/
def find_feasible (neqs poss : List Node) (S : SState) : SState :=
  match ffOuter poss neqs (S.delta, S.feasible) with
  | (d, f) => { S with delta := d, feasible := f }

/-- Fold of `_get_residual_diblob_manager_for_cpt`'s pair loop (lines 166-173):
collect residual edges and the residual cost dict.  `cost[(neq, pos)]` is a
direct dict index, so a missing closure entry makes the whole construction
fail (`none`). -/
def resFold (S : SState) : List Edge → List Edge × (Edge → Option Int) →
    Option (List Edge × (Edge → Option Int))
  | [], acc => some acc
  | (a, b) :: ps, (es, rc) =>
    match S.cost (a, b) with
    | none => none
    | some c =>
      let es1 := es ++ [(a, b)]
      let rc1 := oupdate rc (a, b) (some c)
      if S.feasible (a, b) ≠ 0 then
        resFold S ps (es1 ++ [(b, a)], oupdate rc1 (b, a) (some (-c)))
      else
        resFold S ps (es1, rc1)

/-- `CPTDigraphManager._get_residual_diblob_manager_for_cpt` (lines 152-176).
`residual_digraph.add_nodes(*self.nodes)` (line 162) puts every node of the
original graph into the residual digraph; the round trip through
`dict(residual_digraph('Res'))` is modelled from the spec as preserving the
node and edge sets.  The returned manager is freshly constructed, so its
state is `initState` of the residual graph (in particular its own closure is
never computed). -/
def get_residual (G : Graph) (S : SState) (neqs poss : List Node) : Option (Graph × SState) :=
  match resFold S (listProd neqs poss) ([], fun _ => none) with
  | none => none
  | some out =>
    let Gr : Graph :=
      { nodes := G.nodes, edges := out.1, cost_function := out.2,
        default_cost := G.default_cost }
    some (Gr, initState Gr)

/-- First do-while loop of `_improvements` (lines 196-205): walk the residual
routing tree from `n` back to `n`, computing the cancellation amount `k`.
`spanning_tree[(u, node_id)]` and `cost[(u, v)]` are direct dict indexes, so
a missing entry fails; running out of fuel (a walk that never returns to `n`,
on which the Python loop diverges) also yields `none`. -/
def codeFindK : Nat → (Edge → Option Int) → (Edge → Option Node) → (Edge → Int) →
    Node → Node → Int → Bool → Option Int
  | 0, _, _, _, _, _, _, _ => none
  | m + 1, rc, rt, feas, n, u, k, flag =>
    match rt (u, n) with
    | none => none
    | some v =>
      match rc (u, v) with
      | none => none
      | some c =>
        let k1 := if c < 0 ∧ (flag = true ∨ feas (v, u) < k) then feas (v, u) else k
        let flag1 := if c < 0 ∧ (flag = true ∨ feas (v, u) < k) then false else flag
        if v = n then some k1 else codeFindK m rc rt feas n v k1 flag1

/-- Second do-while loop of `_improvements` (lines 207-216): walk the same
cycle again, subtracting `k` on reverse (negative-cost) edges and adding `k`
on forward edges. -/
def codeApplyK : Nat → (Edge → Option Int) → (Edge → Option Node) → Node → Int →
    Node → (Edge → Int) → Option (Edge → Int)
  | 0, _, _, _, _, _, _ => none
  | m + 1, rc, rt, n, k, u, feas =>
    match rt (u, n) with
    | none => none
    | some v =>
      match rc (u, v) with
      | none => none
      | some c =>
        let feas1 :=
          if c < 0 then fupdate feas (v, u) (feas (v, u) - k)
          else fupdate feas (u, v) (feas (u, v) + k)
        if v = n then some feas1 else codeApplyK m rc rt n k v feas1

/-- `CPTDigraphManager._improvements` (lines 179-219): scan `self.nodes` for
the first node whose residual self-pair cost is negative; cancel along its
routing-tree cycle and report `True`, or report `False` when no node
qualifies.  `rc` and `rt` are the residual manager's cost and spanning tree;
`feas` is `self.feasible`. -/
def improvements (fuel : Nat) : List Node → (Edge → Option Int) → (Edge → Option Node) →
    (Edge → Int) → Option (Bool × (Edge → Int))
  | [], _, _, feas => some (false, feas)
  | n :: ns, rc, rt, feas =>
    if (rc (n, n)).getD 0 < 0 then
      match codeFindK fuel rc rt feas n n 0 true with
      | none => none
      | some k =>
        match codeApplyK fuel rc rt n k n feas with
        | none => none
        | some feas2 => some (true, feas2)
    else improvements fuel ns rc rt feas

/-- `CPTDigraphManager._get_cost` (lines 222-233): the basic cost plus, over
all ordered node pairs, `cost.get(p, 0) * -feasible.get(p, 0)`. -/
def get_cost (G : Graph) (S : SState) : Int :=
  ((listProd G.nodes G.nodes).map
    (fun p => (S.cost p).getD 0 * (-(S.feasible p)))).sum + S.basic_cost

/-- `CPTDigraphManager._find_path` (lines 236-242): the first node in node
order with a strictly positive feasible entry from `frm`, if any. -/
def find_path (G : Graph) (feas : Edge → Int) (frm : Node) : Option Node :=
  G.nodes.find? (fun n => decide (0 < feas (frm, n)))

/-- The `while u != v` hop walk inside `_get_cpt` (lines 259-262): follow the
spanning tree from `u` to `v`, collecting the traversed edges. -/
def hopWalk : Nat → (Edge → Option Node) → Node → Node → Option (List Edge)
  | fuel, t, u, v =>
    if u = v then some []
    else
      match fuel with
      | 0 => none
      | m + 1 =>
        match t (u, v) with
        | none => none
        | some p => (hopWalk m t p v).map (fun rest => (u, p) :: rest)

/-- Main `while True` loop of `_get_cpt` (lines 253-276).  Note line 257:
`feasible[(u, v)] =- 1` assigns the sentinel `-1` to the consumed entry
(it does not decrement it). -/
def get_cpt_loop : Nat → Graph → (Edge → Option Node) → Node → Node → (Edge → Int) →
    List Edge → List Edge → Option (List Edge × (Edge → Int))
  | 0, _, _, _, _, _, _, _ => none
  | m + 1, G, tree, start, v, feas, enbp, cpt =>
    let u := v
    match find_path G feas u with
    | some v2 =>
      let feas2 := fupdate feas (u, v2) (-1)
      match hopWalk (m + 1) tree u v2 with
      | none => none
      | some seg => get_cpt_loop m G tree start v2 feas2 enbp (cpt ++ seg)
    | none =>
      match tree (u, start) with
      | none => none
      | some bridge =>
        if (u, bridge) ∈ enbp then some (cpt, feas)
        else
          let v2 :=
            match G.nodes.find?
              (fun n => decide (n ≠ bridge) && decide ((u, n) ∈ G.edges)
                        && decide ((u, n) ∉ enbp)) with
            | some n => n
            | none => bridge
          get_cpt_loop m G tree start v2 feas ((u, v2) :: enbp) (cpt ++ [(u, v2)])

/-- `CPTDigraphManager._get_cpt` (lines 244-277): tour extraction from the
start node, consuming `self.feasible` and returning the edge sequence. -/
def get_cpt (fuel : Nat) (G : Graph) (S : SState) (start : Node) :
    Option (List Edge × (Edge → Int)) :=
  get_cpt_loop fuel G S.spanning_tree start start S.feasible [] []

/-- The `while self._improvements(residual_cpt)` loop of `compute_cpt`
(lines 292-293): run the canceller, rebuilding the residual graph from the
original deficit/surplus partition and the current assignment after each
improvement. -/
def cancel_loop : Nat → Graph → List Node → List Node → SState → Graph × SState →
    Option SState
  | 0, _, _, _, _, _ => none
  | m + 1, G, neqs, poss, S, res =>
    match improvements (m + 1) G.nodes res.2.cost res.2.spanning_tree S.feasible with
    | none => none
    | some (false, feas2) => some { S with feasible := feas2 }
    | some (true, feas2) =>
      let S2 := { S with feasible := feas2 }
      match get_residual G S2 neqs poss with
      | none => none
      | some res2 => cancel_loop m G neqs poss S2 res2

/-- Steps 2-4 of `compute_cpt` starting from the state left by the strong
connectivity check: split nodes, build the feasible assignment, then cancel
negative cycles until no improvement, returning the post-cancellation state. -/
def post_cancel (fuel : Nat) (G : Graph) (S : SState) : Option SState :=
  match split_nodes_based_on_delta G S with
  | (neqs, poss) =>
    let S2 := find_feasible neqs poss S
    match get_residual G S2 neqs poss with
    | none => none
    | some res => cancel_loop fuel G neqs poss S2 res

/-- The single exception class of the module, `NotSCGException` (lines 9-12).
It is the only error `compute_cpt` can report. -/
inductive CPTError where
  | notSCG
deriving DecidableEq

/-- `CPTDigraphManager.compute_cpt` (lines 280-303): validate strong
connectivity (raising `NotSCGException` otherwise, with the closure mutation
of the check left in place), build and optimize the assignment, extract the
tour, compute the cost from the post-extraction state (Python evaluates
`self._get_cpt(start_node)` before `self._get_cost()`), then reset all
transient state.  The returned pair is the final instance state together
with the outcome. -/
def compute_cpt (fuel : Nat) (G : Graph) (S : SState) (start : Node) :
    Option (SState × Except CPTError (List Edge × Int)) :=
  if (check_if_digraph_is_strongly_connected G S).1 then
    match post_cancel fuel G (check_if_digraph_is_strongly_connected G S).2 with
    | none => none
    | some S3 =>
      match get_cpt fuel G S3 start with
      | none => none
      | some pr =>
        some (initState G, .ok (pr.1, get_cost G { S3 with feasible := pr.2 }))
  else some ((check_if_digraph_is_strongly_connected G S).2, .error .notSCG)

/-- A Boolean check that an edge sequence is a closed walk from `start`:
nonempty, consecutive edges chained, ending back at `start`. -/
def chainFrom : Node → List Edge → Bool
  | _, [] => true
  | u, (a, b) :: rest => decide (a = u) && chainFrom b rest

/-- The endpoint reached by a chained edge sequence started at `u`. -/
def walkEnd : Node → List Edge → Node
  | u, [] => u
  | _, (_, b) :: rest => walkEnd b rest

/-- Closed-walk test used to state the tour claims. -/
def isClosedWalk (start : Node) (w : List Edge) : Bool :=
  !w.isEmpty && chainFrom start w && decide (walkEnd start w = start)

/-- Projection of a `compute_cpt` outcome onto its success payload. -/
def okOf : Except CPTError (List Edge × Int) → Option (List Edge × Int)
  | .ok v => some v
  | .error _ => none

/-- Projection of a `compute_cpt` outcome onto its error payload. -/
def errOf : Except CPTError (List Edge × Int) → Option CPTError
  | .error e => some e
  | .ok _ => none

/-- Strongly connected test graph with a node of imbalance -2: edges
s→a, s→b, s→c, a→t, b→t, c→t, t→s, all costs 1.  Node `s` has surplus 2 and
node `t` deficit 2, so the optimal assignment duplicates the pair (t, s)
twice. -/
def G1 : Graph :=
  { nodes := ["s", "a", "b", "c", "t"]
    edges := [("s", "a"), ("s", "b"), ("s", "c"), ("a", "t"), ("b", "t"), ("c", "t"), ("t", "s")]
    cost_function := fun _ => none
    default_cost := 1 }

/-- Two-node strongly connected graph whose cost assignment a→b, b→a with
costs -1, -1 contains a negative cycle. -/
def G4 : Graph :=
  { nodes := ["a", "b"]
    edges := [("a", "b"), ("b", "a")]
    cost_function := fun e =>
      if e = ("a", "b") then some (-1) else if e = ("b", "a") then some (-1) else none
    default_cost := 1 }

/-- The repeated-call example of CPT.py lines 326-332: nodes A, B, C, D, s, t
with edges A→B, A→C, B→D, C→D, s→A, D→t, t→s, all default cost 1. -/
def Gex : Graph :=
  { nodes := ["A", "B", "C", "D", "s", "t"]
    edges := [("A", "B"), ("A", "C"), ("B", "D"), ("C", "D"), ("s", "A"), ("D", "t"), ("t", "s")]
    cost_function := fun _ => none
    default_cost := 1 }

/-- A graph that is not strongly connected (x→y→z, no way back). -/
def Gns : Graph :=
  { nodes := ["x", "y", "z"]
    edges := [("x", "y"), ("y", "z")]
    cost_function := fun _ => none
    default_cost := 1 }

/-- The edge sequence `compute_cpt` returns on `G1` from start node s. -/
def w1cpt : List Edge :=
  [("s", "b"), ("b", "t"), ("t", "s"), ("s", "c"), ("c", "t"), ("t", "s"), ("s", "a"), ("a", "t")]

/-- The edge sequence `compute_cpt` returns on `Gex` from start node s. -/
def wExCpt : List Edge :=
  [("s", "A"), ("A", "C"), ("C", "D"), ("D", "t"), ("t", "s"),
   ("s", "A"), ("A", "B"), ("B", "D"), ("D", "t"), ("t", "s")]

/-- Whether a node has a negative self-pair entry in a (residual) cost dict:
the scan condition of `_improvements` (line 191). -/
def negSelf (rc : Edge → Option Int) (n : Node) : Bool :=
  decide ((rc (n, n)).getD 0 < 0)

/-- The cycle the residual routing tree induces from `u` back to `n`: the
edge list traversed by repeatedly following `spanning_tree[(u, n)]`. -/
def cycleOf : Nat → (Edge → Option Node) → Node → Node → Option (List Edge)
  | 0, _, _, _ => none
  | m + 1, rt, n, u =>
    match rt (u, n) with
    | none => none
    | some v => if v = n then some [(u, v)] else ((cycleOf m rt n v).map (fun es => (u, v) :: es))

/-- Pure recurrence of the first `_improvements` loop: thread (k, flag)
through the cycle's edge list. -/
def kFold (rc : Edge → Option Int) (feas : Edge → Int) : List Edge → Int → Bool → Int
  | [], k, _ => k
  | e :: es, k, flag =>
    if (rc e).getD 0 < 0 ∧ (flag = true ∨ feas (e.2, e.1) < k) then
      kFold rc feas es (feas (e.2, e.1)) false
    else kFold rc feas es k flag

/-- The assignment amounts sitting on the reverse (negative-cost) edges of a
cycle, in traversal order: for a reverse residual edge (u, v) the assignment
entry is keyed (v, u). -/
def revVals (rc : Edge → Option Int) (feas : Edge → Int) : List Edge → List Int
  | [] => []
  | e :: es =>
    match rc e with
    | some c => if c < 0 then feas (e.2, e.1) :: revVals rc feas es else revVals rc feas es
    | none => revVals rc feas es

/-- Minimum of a list of integers (0 on the empty list, which the claims
never reach). -/
def minOfList : List Int → Int
  | [] => 0
  | v :: vs => vs.foldl min v

/-- One step of the claimed cancellation: on a reverse (negative-cost) edge
subtract `k` from its assignment entry, on a forward edge add `k`. -/
def cancelStep (rc : Edge → Option Int) (k : Int) (feas : Edge → Int) (e : Edge) : Edge → Int :=
  if (rc e).getD 0 < 0 then fupdate feas (e.2, e.1) (feas (e.2, e.1) - k)
  else fupdate feas e (feas e + k)

/-- The claimed cancellation applied along a whole cycle. -/
def cancelCycle (rc : Edge → Option Int) (k : Int) (es : List Edge) (feas : Edge → Int) :
    Edge → Int :=
  es.foldl (cancelStep rc k) feas

/-- A concrete instance state used to exercise `get_residual`: closure entry
(t, s) = 1 and current assignment (t, s) = 2. -/
def Scw : SState :=
  { cost := fun e => if e = ("t", "s") then some 1 else none
    spanning_tree := fun _ => none
    delta := fun _ => 0
    basic_cost := 0
    feasible := fun e => if e = ("t", "s") then 2 else 0 }

/-- A concrete residual cost dict with a negative self-pair at p and a
negative reverse edge p→q. -/
def rcW : Edge → Option Int :=
  fun e =>
    if e = ("p", "p") then some (-1)
    else if e = ("p", "q") then some (-1)
    else if e = ("q", "p") then some 1
    else none

/-- A residual cost dict with no negative self-pair. -/
def rcW0 : Edge → Option Int := fun _ => none

/-- A concrete residual routing tree realizing the cycle p→q→p. -/
def rtW : Edge → Option Node :=
  fun e =>
    if e = ("p", "p") then some "q"
    else if e = ("q", "p") then some "p"
    else none

/-- A concrete assignment with 2 units on the pair (q, p). -/
def feasW : Edge → Int := fun e => if e = ("q", "p") then 2 else 0

/-- The cycle `rtW` induces from p back to p. -/
def esW : List Edge := [("p", "q"), ("q", "p")]

/-- The state of `G1` after the connectivity check of `compute_cpt`. -/
def checked_state (G : Graph) : SState := least_cost_paths G (initState G)

/-- The deficit-node list computed by `compute_cpt` (step 2). -/
def deficit_nodes (G : Graph) : List Node :=
  (split_nodes_based_on_delta G (checked_state G)).1

/-- The surplus-node list computed by `compute_cpt` (step 2). -/
def surplus_nodes (G : Graph) : List Node :=
  (split_nodes_based_on_delta G (checked_state G)).2

/-- The instance state right after `_find_feasible` builds the initial
assignment (step 3 of `compute_cpt`, before any cancellation). -/
def initial_assignment (G : Graph) : SState :=
  find_feasible (deficit_nodes G) (surplus_nodes G) (checked_state G)

/-- Transient-state fields untouched by the closure computation:
`least_cost_paths` mutates only `self.cost` and `self.spanning_tree`. -/
theorem least_cost_paths_preserves (G : Graph) (S : SState) :
    (least_cost_paths G S).feasible = S.feasible
    ∧ (least_cost_paths G S).delta = S.delta
    ∧ (least_cost_paths G S).basic_cost = S.basic_cost := by
  unfold least_cost_paths
  rcases lcpPairs (listProd G.nodes G.nodes) G.nodes S.cost S.spanning_tree with ⟨c, t, ab⟩
  exact ⟨rfl, rfl, rfl⟩

/-- C1: on the strongly connected graph `G1` (node t has deficit 2),
`compute_cpt('s')` terminates but the returned edge sequence is not a closed
walk: it ends at t, not s, although it does contain every original edge.
The claim's closed-walk guarantee fails because line 257 of CPT.py executes
`feasible[(u, v)] =- 1` — an assignment of the sentinel -1 instead of the
intended decrement — so the second required duplication of (t, s) is never
served. -/
theorem compute_cpt_g1_walk_not_closed :
    (compute_cpt 100 G1 (initState G1) "s").map (fun r => okOf r.2) = some (some (w1cpt, 8))
    ∧ G1.edges.all (fun e => decide (e ∈ w1cpt)) = true
    ∧ isClosedWalk "s" w1cpt = false := by
  exact ⟨by decide, by decide, by decide⟩

/-- C2: on `G1` the total cost returned by `compute_cpt` is 8, but the basic
cost is 7 and the final (post-cancellation) assignment duplicates the pair
(t, s) — whose least-cost path costs 1 — twice, so the claimed identity
would require 7 + 1 * 2 = 9.  The discrepancy arises because `_get_cost`
runs after `_get_cpt` overwrote the consumed assignment entry with -1. -/
theorem compute_cpt_g1_cost_mismatch :
    (post_cancel 100 G1 (least_cost_paths G1 (initState G1))).map
        (fun s => s.feasible ("t", "s")) = some 2
    ∧ (least_cost_paths G1 (initState G1)).cost ("t", "s") = some 1
    ∧ (initState G1).basic_cost = 7
    ∧ (compute_cpt 100 G1 (initState G1) "s").map
        (fun r => (okOf r.2).map Prod.snd) = some (some 8)
    ∧ (8 : Int) ≠ 7 + 1 * 2 := by
  exact ⟨by decide, by decide, by decide, by decide, by decide⟩

/-- C8: in the post-cancellation state of `G1` the assignment entry (t, s)
holds 2; after tour extraction serves one duplication from t to s the entry
holds -1, not the 1 the claimed decrement-by-one semantics would give:
line 257 executes `feasible[(u, v)] =- 1`, overwriting the entry with a
sentinel. -/
theorem get_cpt_overwrites_assignment_with_sentinel :
    (post_cancel 100 G1 (least_cost_paths G1 (initState G1))).map
        (fun s => s.feasible ("t", "s")) = some 2
    ∧ (post_cancel 100 G1 (least_cost_paths G1 (initState G1))).bind
        (fun s => (get_cpt 100 G1 s "s").map (fun r => r.2 ("t", "s"))) = some (-1)
    ∧ ((-1 : Int) ≠ 2 - 1) := by
  exact ⟨by decide, by decide, by decide⟩

/-- C3: whenever the strong-connectivity check fails, `compute_cpt` reports
the `NotSCGException` immediately, and the feasible-assignment map (and the
delta table) of the resulting instance state is exactly the one it started
with: no assignment entry is ever added and no optimization step runs. -/
theorem compute_cpt_not_strongly_connected_raises (fuel : Nat) (G : Graph) (S : SState)
    (start : Node) (h : (check_if_digraph_is_strongly_connected G S).1 = false) :
    compute_cpt fuel G S start
      = some ((check_if_digraph_is_strongly_connected G S).2, .error .notSCG)
    ∧ (check_if_digraph_is_strongly_connected G S).2.feasible = S.feasible
    ∧ (check_if_digraph_is_strongly_connected G S).2.delta = S.delta := by
  have h2 : (check_if_digraph_is_strongly_connected G S).2 = least_cost_paths G S := rfl
  refine ⟨?_, ?_, ?_⟩
  · unfold compute_cpt
    rw [h]
    simp
  · rw [h2]
    exact (least_cost_paths_preserves G S).1
  · rw [h2]
    exact (least_cost_paths_preserves G S).2.1

/-- Witness for C3 at the non-strongly-connected graph `Gns`. -/
theorem compute_cpt_not_strongly_connected_raises_witness :
    (check_if_digraph_is_strongly_connected Gns (initState Gns)).1 = false
    ∧ (compute_cpt 10 Gns (initState Gns) "x"
        = some ((check_if_digraph_is_strongly_connected Gns (initState Gns)).2, .error .notSCG)
      ∧ (check_if_digraph_is_strongly_connected Gns (initState Gns)).2.feasible
          = (initState Gns).feasible
      ∧ (check_if_digraph_is_strongly_connected Gns (initState Gns)).2.delta
          = (initState Gns).delta) :=
  ⟨by decide,
   compute_cpt_not_strongly_connected_raises 10 Gns (initState Gns) "x" (by decide)⟩

/-- C10: on the failure path, `compute_cpt` returns with the instance state
produced by `least_cost_paths` during the connectivity check — the cost map
and spanning tree keep the partial closure entries (the end-of-computation
reset never runs on this path), while `feasible`, `delta` and `basic_cost`
are untouched. -/
theorem not_scg_leaves_closure_mutation (fuel : Nat) (G : Graph) (S : SState) (start : Node)
    (h : (check_if_digraph_is_strongly_connected G S).1 = false) :
    compute_cpt fuel G S start = some (least_cost_paths G S, .error .notSCG)
    ∧ (least_cost_paths G S).feasible = S.feasible
    ∧ (least_cost_paths G S).delta = S.delta
    ∧ (least_cost_paths G S).basic_cost = S.basic_cost := by
  refine ⟨?_, (least_cost_paths_preserves G S).1, (least_cost_paths_preserves G S).2.1,
    (least_cost_paths_preserves G S).2.2⟩
  unfold compute_cpt
  rw [h]
  simp
  rfl

/-- Witness for C10 at `Gns`: the check fails, and the retained cost map
genuinely differs from the freshly constructed one — the connectivity check
added the closure entry (x, z) = 2 which a reset would have discarded. -/
theorem not_scg_leaves_closure_mutation_witness :
    (check_if_digraph_is_strongly_connected Gns (initState Gns)).1 = false
    ∧ (compute_cpt 10 Gns (initState Gns) "x"
        = some (least_cost_paths Gns (initState Gns), .error .notSCG)
      ∧ (least_cost_paths Gns (initState Gns)).feasible = (initState Gns).feasible
      ∧ (least_cost_paths Gns (initState Gns)).delta = (initState Gns).delta
      ∧ (least_cost_paths Gns (initState Gns)).basic_cost = (initState Gns).basic_cost)
    ∧ (least_cost_paths Gns (initState Gns)).cost ("x", "z") = some 2
    ∧ (initState Gns).cost ("x", "z") = none :=
  ⟨by decide,
   not_scg_leaves_closure_mutation 10 Gns (initState Gns) "x" (by decide),
   by decide, by decide⟩

/-- C4 counterexample: on the strongly connected two-node graph `G4` whose
cost assignment contains the negative cycle a→b→a of cost -2, the closure
computation does create the negative self-pair entry ((b, b) = -2), but the
caller receives the `NotSCGException` — the signal reserved for graphs that
are not strongly connected — and not any distinguished configuration error:
no such error exists in the code, refuting the claim. -/
theorem negative_cycle_reported_as_not_scg :
    (compute_cpt 10 G4 (initState G4) "a").map (fun r => errOf r.2) = some (some .notSCG)
    ∧ (least_cost_paths G4 (initState G4)).cost ("b", "b") = some (-2) := by
  exact ⟨by decide, by decide⟩

/-- C4 amended: when the cost closure computation creates a self-pair entry
with negative accumulated cost it stops early, leaving the closure partial
(here (a, a) is missing although a→b→a exists), and no distinguished
configuration error is reported — the only error the module can raise is
`NotSCGException`, which is what `compute_cpt` reports on `G4` even though
the graph is strongly connected. -/
theorem negative_cycle_detected_but_misreported :
    (least_cost_paths G4 (initState G4)).cost ("b", "b") = some (-2)
    ∧ (least_cost_paths G4 (initState G4)).cost ("a", "a") = none
    ∧ (compute_cpt 10 G4 (initState G4) "a").map (fun r => errOf r.2) = some (some .notSCG)
    ∧ ∀ e : CPTError, e = CPTError.notSCG := by
  refine ⟨by decide, by decide, by decide, ?_⟩
  intro e
  cases e
  rfl

/-- C9: whenever `compute_cpt` succeeds on a freshly constructed (or freshly
reset) instance, the state it leaves behind is again the freshly constructed
state — the end-of-computation reset reinstalls `_set_cost`,
`_set_spanning_tree`, `_set_delta`, `_set_basic_cost` and an empty feasible
map — so an immediately repeated call returns the identical walk and total
cost. -/
theorem compute_cpt_repeat_same_result (fuel : Nat) (G : Graph) (start : Node)
    (S2 : SState) (w : List Edge) (c : Int)
    (h : compute_cpt fuel G (initState G) start = some (S2, .ok (w, c))) :
    S2 = initState G ∧ compute_cpt fuel G S2 start = some (S2, .ok (w, c)) := by
  have hS : S2 = initState G := by
    unfold compute_cpt at h
    cases hok : (check_if_digraph_is_strongly_connected G (initState G)).1 with
    | false => rw [hok] at h; simp at h
    | true =>
      rw [hok] at h
      simp only [if_true] at h
      cases hp : post_cancel fuel G (check_if_digraph_is_strongly_connected G (initState G)).2 with
      | none => rw [hp] at h; simp at h
      | some S3 =>
        rw [hp] at h
        dsimp only at h
        cases hg : get_cpt fuel G S3 start with
        | none => rw [hg] at h; simp at h
        | some pr =>
          rw [hg] at h
          simp only [Option.some.injEq, Prod.mk.injEq] at h
          exact h.1.symm
  refine ⟨hS, ?_⟩
  rw [hS] at h ⊢
  exact h

/-- Witness for C9 at the repeated-call example `Gex` of CPT.py
lines 326-332: the first call succeeds with total cost 10 and resets the
state, so the second call returns the same result. -/
theorem compute_cpt_repeat_same_result_witness :
    initState Gex = initState Gex
    ∧ compute_cpt 100 Gex (initState Gex) "s" = some (initState Gex, .ok (wExCpt, 10)) :=
  compute_cpt_repeat_same_result 100 Gex "s" (initState Gex) wExCpt 10 (by rfl)


/-- Membership in the product list mirrors `itertools.product`. -/
theorem mem_listProd {α β : Type} (xs : List α) (ys : List β) (x : α) (y : β) :
    (x, y) ∈ listProd xs ys ↔ x ∈ xs ∧ y ∈ ys := by
  induction xs with
  | nil => simp [listProd]
  | cons a as ih =>
    simp only [listProd, List.mem_append, List.mem_map, ih, List.mem_cons, Prod.mk.injEq]
    constructor
    · rintro (⟨b, hb, rfl, rfl⟩ | ⟨h1, h2⟩)
      · exact ⟨Or.inl rfl, hb⟩
      · exact ⟨Or.inr h1, h2⟩
    · rintro ⟨(rfl | h1), h2⟩
      · exact Or.inl ⟨y, h2, rfl, rfl⟩
      · exact Or.inr ⟨h1, h2⟩

/-- Edges already accumulated survive the residual fold. -/
theorem resFold_mem_mono (S : SState) :
    ∀ (ps : List Edge) (es : List Edge) (rc : Edge → Option Int)
      (out : List Edge × (Edge → Option Int)),
      resFold S ps (es, rc) = some out → ∀ e ∈ es, e ∈ out.1 := by
  intro ps
  induction ps with
  | nil =>
    intro es rc out h e he
    injection h with h1
    rw [← h1]
    exact he
  | cons q ps ih =>
    obtain ⟨a, b⟩ := q
    intro es rc out h e he
    unfold resFold at h
    cases hc : S.cost (a, b) with
    | none => rw [hc] at h; cases h
    | some c =>
      rw [hc] at h
      dsimp only at h
      by_cases hf : S.feasible (a, b) ≠ 0
      · rw [if_pos hf] at h
        exact ih _ _ out h e (by simp [he])
      · rw [if_neg hf] at h
        exact ih _ _ out h e (by simp [he])

/-- Stability of residual-cost entries under the fold: once a forward entry
holds its closure cost (resp. a reverse entry its negated closure cost),
later pairs cannot change it, because forward keys live in
deficit x surplus while reverse keys live in surplus x deficit. -/
theorem resFold_untouched (S : SState) (neqs poss : List Node)
    (hdisj : ∀ x ∈ neqs, x ∉ poss) :
    ∀ (ps : List Edge), (∀ q ∈ ps, q.1 ∈ neqs ∧ q.2 ∈ poss) →
    ∀ es rc out, resFold S ps (es, rc) = some out →
    ∀ a b, a ∈ neqs → b ∈ poss →
      (rc (a, b) = S.cost (a, b) → out.2 (a, b) = S.cost (a, b))
      ∧ (rc (b, a) = (S.cost (a, b)).map (fun x => -x) →
          out.2 (b, a) = (S.cost (a, b)).map (fun x => -x)) := by
  intro ps
  induction ps with
  | nil =>
    intro _ es rc out h a b ha hb
    injection h with h1
    rw [← h1]
    exact ⟨fun hh => hh, fun hh => hh⟩
  | cons q ps ih =>
    obtain ⟨a0, b0⟩ := q
    intro hmem es rc out h a b ha hb
    have ha0 : a0 ∈ neqs := (hmem (a0, b0) (by simp)).1
    have hb0 : b0 ∈ poss := (hmem (a0, b0) (by simp)).2
    have hmem2 : ∀ q ∈ ps, q.1 ∈ neqs ∧ q.2 ∈ poss := fun q hq => hmem q (by simp [hq])
    have hne_ab_rev : ((a, b) : Edge) ≠ (b0, a0) := by
      intro hh
      injection hh with h1 h2
      exact hdisj a ha (h1 ▸ hb0)
    have hne_ba_fwd : ((b, a) : Edge) ≠ (a0, b0) := by
      intro hh
      injection hh with h1 h2
      exact hdisj a0 ha0 (h1 ▸ hb)
    have hne00 : ((a0, b0) : Edge) ≠ (b0, a0) := by
      intro hh
      injection hh with h1 h2
      exact hdisj a0 ha0 (h1 ▸ hb0)
    unfold resFold at h
    cases hc : S.cost (a0, b0) with
    | none => rw [hc] at h; cases h
    | some c0 =>
      rw [hc] at h
      dsimp only at h
      by_cases hf : S.feasible (a0, b0) ≠ 0
      · rw [if_pos hf] at h
        have step := ih hmem2 _ _ out h a b ha hb
        refine ⟨fun hh => step.1 ?_, fun hh => step.2 ?_⟩
        · by_cases hab : ((a, b) : Edge) = (a0, b0)
          · rw [oupdate, if_neg (hab ▸ hne00), oupdate, if_pos hab, hab, hc]
          · rw [oupdate, if_neg hne_ab_rev, oupdate, if_neg hab]
            exact hh
        · by_cases hba : ((b, a) : Edge) = (b0, a0)
          · have hba2 := hba
            simp only [Prod.mk.injEq] at hba2
            rw [oupdate, if_pos hba, hba2.2, hba2.1, hc]
            simp
          · rw [oupdate, if_neg hba, oupdate, if_neg hne_ba_fwd]
            exact hh
      · rw [if_neg hf] at h
        have step := ih hmem2 _ _ out h a b ha hb
        refine ⟨fun hh => step.1 ?_, fun hh => step.2 ?_⟩
        · by_cases hab : ((a, b) : Edge) = (a0, b0)
          · rw [oupdate, if_pos hab, hab, hc]
          · rw [oupdate, if_neg hab]
            exact hh
        · rw [oupdate, if_neg hne_ba_fwd]
          exact hh

/-- Every pair processed by the residual fold gets its forward edge and
closure-costed entry, and, when its assignment is non-zero, its negated
reverse edge and entry. -/
theorem resFold_sets (S : SState) (neqs poss : List Node)
    (hdisj : ∀ x ∈ neqs, x ∉ poss) :
    ∀ (ps : List Edge), (∀ q ∈ ps, q.1 ∈ neqs ∧ q.2 ∈ poss) →
    ∀ es rc out, resFold S ps (es, rc) = some out →
    ∀ a b, (a, b) ∈ ps →
      ∃ c, S.cost (a, b) = some c ∧ out.2 (a, b) = some c ∧ (a, b) ∈ out.1
        ∧ (S.feasible (a, b) ≠ 0 → out.2 (b, a) = some (-c) ∧ (b, a) ∈ out.1) := by
  intro ps
  induction ps with
  | nil => intro _ es rc out h a b hab; cases hab
  | cons q ps ih =>
    obtain ⟨a0, b0⟩ := q
    intro hmem es rc out h a b hab
    have ha0 : a0 ∈ neqs := (hmem (a0, b0) (by simp)).1
    have hb0 : b0 ∈ poss := (hmem (a0, b0) (by simp)).2
    have hmem2 : ∀ q ∈ ps, q.1 ∈ neqs ∧ q.2 ∈ poss := fun q hq => hmem q (by simp [hq])
    have hne00 : ((a0, b0) : Edge) ≠ (b0, a0) := by
      intro hh
      injection hh with h1 h2
      exact hdisj a0 ha0 (h1 ▸ hb0)
    unfold resFold at h
    cases hc : S.cost (a0, b0) with
    | none => rw [hc] at h; cases h
    | some c0 =>
      rw [hc] at h
      dsimp only at h
      rcases List.mem_cons.mp hab with heq | htail
      · -- the pair at the head of the list
        simp only [Prod.mk.injEq] at heq
        obtain ⟨rfl, rfl⟩ := heq
        refine ⟨c0, hc, ?_⟩
        by_cases hf : S.feasible (a, b) ≠ 0
        · rw [if_pos hf] at h
          have stab := resFold_untouched S neqs poss hdisj ps hmem2 _ _ out h a b ha0 hb0
          have hfwd : out.2 (a, b) = some c0 := by
            rw [hc] at stab
            exact stab.1 (by rw [oupdate, if_neg hne00, oupdate, if_pos rfl])
          have hrev : out.2 (b, a) = some (-c0) := by
            have := stab.2
            rw [hc] at this
            exact this (by simp [oupdate])
          refine ⟨hfwd, ?_, fun _ => ⟨hrev, ?_⟩⟩
          · exact resFold_mem_mono S ps _ _ out h (a, b) (by simp)
          · exact resFold_mem_mono S ps _ _ out h (b, a) (by simp)
        · rw [if_neg hf] at h
          have stab := resFold_untouched S neqs poss hdisj ps hmem2 _ _ out h a b ha0 hb0
          have hfwd : out.2 (a, b) = some c0 := by
            rw [hc] at stab
            exact stab.1 (by rw [oupdate, if_pos rfl])
          refine ⟨hfwd, ?_, fun hcon => absurd hcon hf⟩
          exact resFold_mem_mono S ps _ _ out h (a, b) (by simp)
      · -- a pair further down the list
        by_cases hf : S.feasible (a0, b0) ≠ 0
        · rw [if_pos hf] at h
          exact ih hmem2 _ _ out h a b htail
        · rw [if_neg hf] at h
          exact ih hmem2 _ _ out h a b htail

/-- Characterization of residual edges: everything in the output edge list is
either pre-accumulated, a forward pair, or the reverse of a pair whose
assignment is non-zero. -/
theorem resFold_mem_char (S : SState) :
    ∀ (ps : List Edge) (es : List Edge) (rc : Edge → Option Int)
      (out : List Edge × (Edge → Option Int)),
      resFold S ps (es, rc) = some out →
      ∀ e ∈ out.1, e ∈ es ∨ e ∈ ps ∨ ∃ q ∈ ps, e = (q.2, q.1) ∧ S.feasible q ≠ 0 := by
  intro ps
  induction ps with
  | nil =>
    intro es rc out h e he
    injection h with h1
    rw [← h1] at he
    exact Or.inl he
  | cons q ps ih =>
    obtain ⟨a, b⟩ := q
    intro es rc out h e he
    unfold resFold at h
    cases hc : S.cost (a, b) with
    | none => rw [hc] at h; cases h
    | some c =>
      rw [hc] at h
      dsimp only at h
      by_cases hf : S.feasible (a, b) ≠ 0
      · rw [if_pos hf] at h
        rcases ih _ _ out h e he with hin | hin | ⟨p, hp, hep, hfp⟩
        · rcases List.mem_append.mp hin with hin2 | hin2
          · rcases List.mem_append.mp hin2 with hin3 | hin3
            · exact Or.inl hin3
            · have he2 : e = (a, b) := by simpa using hin3
              exact Or.inr (Or.inl (by simp [he2]))
          · refine Or.inr (Or.inr ⟨(a, b), by simp, ?_, hf⟩)
            simpa using hin2
        · exact Or.inr (Or.inl (by simp [hin]))
        · exact Or.inr (Or.inr ⟨p, by simp [hp], hep, hfp⟩)
      · rw [if_neg hf] at h
        rcases ih _ _ out h e he with hin | hin | ⟨p, hp, hep, hfp⟩
        · rcases List.mem_append.mp hin with hin2 | hin2
          · exact Or.inl hin2
          · have he2 : e = (a, b) := by simpa using hin2
            exact Or.inr (Or.inl (by simp [he2]))
        · exact Or.inr (Or.inl (by simp [hin]))
        · exact Or.inr (Or.inr ⟨p, by simp [hp], hep, hfp⟩)

/-- C6 amended: a residual graph built by
`_get_residual_diblob_manager_for_cpt` has as its node set ALL nodes of the
original graph (line 162 adds `*self.nodes`, balanced nodes included), not
just deficit and surplus nodes; for every (deficit, surplus) pair it contains
the forward edge costed exactly at the closure entry for that pair, and it
contains the reverse edge, costed at the negation of that entry, if and only
if the current assignment on the pair is non-zero. -/
theorem residual_graph_shape (G : Graph) (S : SState) (neqs poss : List Node)
    (hdisj : ∀ x ∈ neqs, x ∉ poss)
    (hsome : (get_residual G S neqs poss).isSome = true) :
    (get_residual G S neqs poss).map (fun r => r.1.nodes) = some G.nodes
    ∧ ∀ a ∈ neqs, ∀ b ∈ poss,
        (get_residual G S neqs poss).map (fun r => decide ((a, b) ∈ r.1.edges)) = some true
        ∧ (get_residual G S neqs poss).map (fun r => r.2.cost (a, b)) = some (S.cost (a, b))
        ∧ (get_residual G S neqs poss).map (fun r => decide ((b, a) ∈ r.1.edges))
            = some (decide (S.feasible (a, b) ≠ 0))
        ∧ (S.feasible (a, b) ≠ 0 →
            (get_residual G S neqs poss).map (fun r => r.2.cost (b, a))
              = some ((S.cost (a, b)).map (fun x => -x))) := by
  cases hrf : resFold S (listProd neqs poss) ([], fun _ => none) with
  | none =>
    rw [get_residual, hrf] at hsome
    cases hsome
  | some out =>
    have hgr : get_residual G S neqs poss
        = some ({ nodes := G.nodes, edges := out.1, cost_function := out.2,
                  default_cost := G.default_cost },
                initState { nodes := G.nodes, edges := out.1, cost_function := out.2,
                            default_cost := G.default_cost }) := by
      rw [get_residual, hrf]
    have hmem : ∀ q ∈ listProd neqs poss, q.1 ∈ neqs ∧ q.2 ∈ poss := by
      intro q hq
      obtain ⟨x, y⟩ := q
      exact (mem_listProd neqs poss x y).mp hq
    refine ⟨by rw [hgr]; rfl, ?_⟩
    intro a ha b hb
    have hpair : ((a, b) : Edge) ∈ listProd neqs poss := (mem_listProd neqs poss a b).mpr ⟨ha, hb⟩
    obtain ⟨c, hcost, hfwd, hfmem, hrev⟩ :=
      resFold_sets S neqs poss hdisj (listProd neqs poss) hmem _ _ out hrf a b hpair
    refine ⟨?_, ?_, ?_, ?_⟩
    · rw [hgr]
      simp [hfmem]
    · rw [hgr]
      simp [initState, set_cost, hfmem, hfwd, hcost]
    · rw [hgr]
      by_cases hf : S.feasible (a, b) ≠ 0
      · have hbm := (hrev hf).2
        simp [hbm, hf]
      · have hnomem : ((b, a) : Edge) ∉ out.1 := by
          intro hin
          rcases resFold_mem_char S (listProd neqs poss) _ _ out hrf (b, a) hin with
            h0 | hba | ⟨q, hq, hqe, hqf⟩
          · cases h0
          · have := hmem (b, a) hba
            exact hdisj b this.1 hb
          · obtain ⟨x, y⟩ := q
            simp only [Prod.mk.injEq] at hqe
            obtain ⟨rfl, rfl⟩ := hqe
            exact hf hqf
        simp [hnomem, hf]
    · intro hf
      have hrv := hrev hf
      rw [hgr]
      simp [initState, set_cost, hrv.1, hrv.2, hcost]

/-- Witness for the residual-shape theorem at a concrete state: the pair
(t, s) has closure cost 1 and assignment 2, so the residual contains the
forward edge (t, s), the reverse edge (s, t), and all five nodes of `G1`. -/
theorem residual_graph_shape_witness :
    (get_residual G1 Scw ["t"] ["s"]).isSome = true
    ∧ (get_residual G1 Scw ["t"] ["s"]).map (fun r => r.1.nodes) = some G1.nodes
    ∧ (get_residual G1 Scw ["t"] ["s"]).map (fun r => decide (("s", "t") ∈ r.1.edges))
        = some (decide (Scw.feasible ("t", "s") ≠ 0)) := by
  refine ⟨by decide, ?_, ?_⟩
  · exact (residual_graph_shape G1 Scw ["t"] ["s"] (by decide) (by decide)).1
  · exact (((residual_graph_shape G1 Scw ["t"] ["s"] (by decide) (by decide)).2
      "t" (by decide) "s" (by decide)).2).2.1

/-- C6 counterexample: in the CPT computation on `G1` the deficit/surplus
partition is (["t"], ["s"]), yet the residual graph's node set is the full
node list of `G1` — it contains the balanced node "a" — so it is not equal
to the union of the deficit and surplus sets, refuting the claimed node-set
description. -/
theorem residual_nodes_not_deficit_surplus :
    split_nodes_based_on_delta G1 (checked_state G1) = (["t"], ["s"])
    ∧ (get_residual G1 (find_feasible ["t"] ["s"] (checked_state G1)) ["t"] ["s"]).map
        (fun r => r.1.nodes) = some ["s", "a", "b", "c", "t"]
    ∧ ("a" ∈ (["s", "a", "b", "c", "t"] : List Node)
        ∧ "a" ∉ (["t"] ++ ["s"] : List Node)
        ∧ (checked_state G1).delta "a" = 0)
    ∧ (["s", "a", "b", "c", "t"] : List Node) ≠ ["t"] ++ ["s"] := by
  exact ⟨by decide, by decide, by decide, by decide⟩

/-- The first `_improvements` loop computes exactly the `kFold` recurrence
along the routing-tree cycle, provided the cycle closes within the fuel and
every traversed edge has a residual cost entry. -/
theorem codeFindK_eq (rc : Edge → Option Int) (rt : Edge → Option Node) (feas : Edge → Int)
    (n : Node) :
    ∀ (fuel : Nat) (u : Node) (es : List Edge) (k : Int) (flag : Bool),
      cycleOf fuel rt n u = some es →
      (∀ e ∈ es, (rc e).isSome = true) →
      codeFindK fuel rc rt feas n u k flag = some (kFold rc feas es k flag) := by
  intro fuel
  induction fuel with
  | zero => intro u es k flag hcyc _; cases hcyc
  | succ m ih =>
    intro u es k flag hcyc hsome
    unfold cycleOf at hcyc
    cases hrt : rt (u, n) with
    | none => rw [hrt] at hcyc; cases hcyc
    | some v =>
      rw [hrt] at hcyc
      dsimp only at hcyc
      unfold codeFindK
      rw [hrt]
      dsimp only
      by_cases hv : v = n
      · rw [if_pos hv] at hcyc
        injection hcyc with h1
        subst h1
        have hs := hsome (u, v) (by simp)
        cases hcv : rc (u, v) with
        | none => rw [hcv] at hs; cases hs
        | some c =>
          dsimp only
          rw [if_pos hv]
          by_cases hcond : c < 0 ∧ (flag = true ∨ feas (v, u) < k)
          · simp only [kFold, hcv, Option.getD_some, if_pos hcond]
          · simp only [kFold, hcv, Option.getD_some, if_neg hcond]
      · rw [if_neg hv] at hcyc
        cases hcyc2 : cycleOf m rt n v with
        | none => rw [hcyc2] at hcyc; cases hcyc
        | some es2 =>
          rw [hcyc2] at hcyc
          injection hcyc with h1
          subst h1
          have hs := hsome (u, v) (by simp)
          have hsome2 : ∀ e ∈ es2, (rc e).isSome = true := fun e he => hsome e (by simp [he])
          cases hcv : rc (u, v) with
          | none => rw [hcv] at hs; cases hs
          | some c =>
            dsimp only
            rw [if_neg hv]
            by_cases hcond : c < 0 ∧ (flag = true ∨ feas (v, u) < k)
            · simp only [kFold, hcv, Option.getD_some, if_pos hcond]
              exact ih v es2 (feas (v, u)) false hcyc2 hsome2
            · simp only [kFold, hcv, Option.getD_some, if_neg hcond]
              exact ih v es2 k flag hcyc2 hsome2

/-- The second `_improvements` loop applies exactly the claimed cancellation
fold along the same cycle. -/
theorem codeApplyK_eq (rc : Edge → Option Int) (rt : Edge → Option Node) (n : Node) (kk : Int) :
    ∀ (fuel : Nat) (u : Node) (es : List Edge) (feas : Edge → Int),
      cycleOf fuel rt n u = some es →
      (∀ e ∈ es, (rc e).isSome = true) →
      codeApplyK fuel rc rt n kk u feas = some (es.foldl (cancelStep rc kk) feas) := by
  intro fuel
  induction fuel with
  | zero => intro u es feas hcyc _; cases hcyc
  | succ m ih =>
    intro u es feas hcyc hsome
    unfold cycleOf at hcyc
    cases hrt : rt (u, n) with
    | none => rw [hrt] at hcyc; cases hcyc
    | some v =>
      rw [hrt] at hcyc
      dsimp only at hcyc
      unfold codeApplyK
      rw [hrt]
      dsimp only
      by_cases hv : v = n
      · rw [if_pos hv] at hcyc
        injection hcyc with h1
        subst h1
        have hs := hsome (u, v) (by simp)
        cases hcv : rc (u, v) with
        | none => rw [hcv] at hs; cases hs
        | some c =>
          dsimp only
          rw [if_pos hv]
          simp only [List.foldl_cons, List.foldl_nil, cancelStep, hcv, Option.getD_some]
      · rw [if_neg hv] at hcyc
        cases hcyc2 : cycleOf m rt n v with
        | none => rw [hcyc2] at hcyc; cases hcyc
        | some es2 =>
          rw [hcyc2] at hcyc
          injection hcyc with h1
          subst h1
          have hs := hsome (u, v) (by simp)
          have hsome2 : ∀ e ∈ es2, (rc e).isSome = true := fun e he => hsome e (by simp [he])
          cases hcv : rc (u, v) with
          | none => rw [hcv] at hs; cases hs
          | some c =>
            dsimp only
            rw [if_neg hv]
            rw [ih v es2 _ hcyc2 hsome2]
            simp only [List.foldl_cons, cancelStep, hcv, Option.getD_some]

/-- With the flag cleared, the `kFold` recurrence is a running minimum over
the reverse-edge assignment amounts. -/
theorem kFold_false (rc : Edge → Option Int) (feas : Edge → Int) :
    ∀ (es : List Edge) (k : Int),
      kFold rc feas es k false = (revVals rc feas es).foldl min k := by
  intro es
  induction es with
  | nil => intro k; rfl
  | cons e es ih =>
    intro k
    cases hce : rc e with
    | none => simp [kFold, revVals, hce, ih]
    | some c =>
      simp only [kFold, revVals, hce, Option.getD_some]
      by_cases hc : c < 0
      · rw [if_pos hc, List.foldl_cons]
        by_cases hlt : feas (e.2, e.1) < k
        · rw [if_pos ⟨hc, Or.inr hlt⟩, ih, min_eq_right (le_of_lt hlt)]
        · rw [if_neg (fun hcon => hlt (hcon.2.resolve_left (by simp))), ih,
            min_eq_left (le_of_not_lt hlt)]
      · rw [if_neg hc, if_neg (fun hcon => hc hcon.1), ih]

/-- With the flag set (its initial state), the `kFold` recurrence computes
the plain minimum of the reverse-edge assignment amounts, or keeps its
initial value when there is none. -/
theorem kFold_true (rc : Edge → Option Int) (feas : Edge → Int) :
    ∀ (es : List Edge) (k : Int),
      kFold rc feas es k true
        = match revVals rc feas es with
          | [] => k
          | v :: vs => vs.foldl min v := by
  intro es
  induction es with
  | nil => intro k; rfl
  | cons e es ih =>
    intro k
    cases hce : rc e with
    | none => simp only [kFold, revVals, hce]; rw [if_neg (by simp)]; exact ih k
    | some c =>
      simp only [kFold, revVals, hce, Option.getD_some]
      by_cases hc : c < 0
      · rw [if_pos hc, if_pos ⟨hc, Or.inl trivial⟩, kFold_false rc feas es (feas (e.2, e.1))]
      · rw [if_neg hc, if_neg (fun hcon => hc hcon.1)]
        exact ih k

/-- C5: the cycle canceller `_improvements` scans the node list in order and
(a) returns no improvement, with the assignment untouched, when no node has a
negative self-pair cost; (b) on the first node `n` with a negative self-pair
cost it walks the residual routing tree from `n` back to `n`, takes `k` to be
the minimum assignment amount over the reverse (negative-cost) edges of that
cycle, subtracts `k` from the assignment entry of every reverse edge and
adds `k` to the assignment entry of every forward edge (second walk of the
same cycle), and returns improvement without scanning further nodes. -/
theorem improvements_cancels_first_negative_cycle (fuel : Nat) (nodes : List Node)
    (rc : Edge → Option Int) (rt : Edge → Option Node) (feas : Edge → Int) :
    (nodes.find? (negSelf rc) = none →
      improvements fuel nodes rc rt feas = some (false, feas))
    ∧ (∀ n es, nodes.find? (negSelf rc) = some n →
        cycleOf fuel rt n n = some es →
        (∀ e ∈ es, (rc e).isSome = true) →
        revVals rc feas es ≠ [] →
        improvements fuel nodes rc rt feas
          = some (true, cancelCycle rc (minOfList (revVals rc feas es)) es feas)) := by
  induction nodes with
  | nil =>
    refine ⟨fun _ => rfl, fun n es hf _ _ _ => ?_⟩
    simp [List.find?] at hf
  | cons n0 ns ih =>
    by_cases hneg : (rc (n0, n0)).getD 0 < 0
    · have hnegb : negSelf rc n0 = true := by simp [negSelf, hneg]
      constructor
      · intro hf
        rw [List.find?_cons_of_pos _ hnegb] at hf
        cases hf
      · intro n es hf hcyc hsome hne
        rw [List.find?_cons_of_pos _ hnegb] at hf
        injection hf with h1
        subst h1
        unfold improvements
        rw [if_pos hneg]
        rw [codeFindK_eq rc rt feas n0 fuel n0 es 0 true hcyc hsome]
        have hkmin : kFold rc feas es 0 true = minOfList (revVals rc feas es) := by
          rw [kFold_true]
          cases hrv : revVals rc feas es with
          | nil => exact absurd hrv hne
          | cons v vs => rfl
        rw [hkmin]
        dsimp only
        rw [codeApplyK_eq rc rt n0 (minOfList (revVals rc feas es)) fuel n0 es feas hcyc hsome]
        rfl
    · have hnegb : ¬negSelf rc n0 = true := by simp [negSelf, hneg]
      constructor
      · intro hf
        rw [List.find?_cons_of_neg _ hnegb] at hf
        unfold improvements
        rw [if_neg hneg]
        exact ih.1 hf
      · intro n es hf hcyc hsome hne
        rw [List.find?_cons_of_neg _ hnegb] at hf
        unfold improvements
        rw [if_neg hneg]
        exact ih.2 n es hf hcyc hsome hne

/-- Witness for the canceller theorem: with residual cost `rcW` (self-pair
(p, p) negative, reverse edge (p, q) of cost -1) and routing tree `rtW`
(cycle p→q→p), the canceller reports improvement and cancels k = 2; with the
entry-free cost dict `rcW0` it reports no improvement and leaves the
assignment untouched. -/
theorem improvements_cancels_first_negative_cycle_witness :
    improvements 5 ["p", "q"] rcW0 rtW feasW = some (false, feasW)
    ∧ improvements 5 ["p", "q"] rcW rtW feasW
        = some (true, cancelCycle rcW (minOfList (revVals rcW feasW esW)) esW feasW) :=
  ⟨(improvements_cancels_first_negative_cycle 5 ["p", "q"] rcW0 rtW feasW).1 (by decide),
   (improvements_cancels_first_negative_cycle 5 ["p", "q"] rcW rtW feasW).2 "p" esW
     (by decide) (by decide) (by decide) (by decide)⟩

/-- Updating a node entry and reading it back. -/
theorem nupdate_same (f : Node → Int) (n : Node) (v : Int) : nupdate f n v n = v := by
  simp [nupdate]

/-- Updating a node entry leaves the others alone. -/
theorem nupdate_other (f : Node → Int) (n : Node) (v : Int) (x : Node) (h : x ≠ n) :
    nupdate f n v x = f x := by
  simp [nupdate, h]

/-- Updating a feasible entry and reading it back. -/
theorem fupdate_same (f : Edge → Int) (e : Edge) (v : Int) : fupdate f e v e = v := by
  simp [fupdate]

/-- Updating a feasible entry leaves the others alone. -/
theorem fupdate_other (f : Edge → Int) (e : Edge) (v : Int) (x : Edge) (h : x ≠ e) :
    fupdate f e v x = f x := by
  simp [fupdate, h]

/-- Sum of a pointwise-negated map. -/
theorem sumMap_neg {α : Type} (l : List α) (f : α → Int) :
    (l.map (fun x => -(f x))).sum = -((l.map f).sum) := by
  induction l with
  | nil => simp
  | cons a l ih => simp [ih]; ring

/-- Congruence for sums of maps. -/
theorem sumMap_congr {α : Type} (l : List α) (f g : α → Int) (h : ∀ x ∈ l, f x = g x) :
    (l.map f).sum = (l.map g).sum := by
  rw [List.map_congr_left h]

/-- A finite double sum can be computed in either order. -/
theorem sumMap_swap {α β : Type} (l1 : List α) (l2 : List β) (g : α → β → Int) :
    (l1.map (fun a => (l2.map (g a)).sum)).sum
      = (l2.map (fun b => (l1.map (fun a => g a b)).sum)).sum := by
  induction l1 with
  | nil => simp
  | cons a l1 ih =>
    simp only [List.map_cons, List.sum_cons]
    rw [ih, List.sum_map_add]

/-- A sum of nonnegative integers is zero only if every term is. -/
theorem sumMap_nonneg_eq_zero {α : Type} (l : List α) (f : α → Int)
    (h : ∀ x ∈ l, 0 ≤ f x) (hz : (l.map f).sum = 0) : ∀ x ∈ l, f x = 0 := by
  induction l with
  | nil => intro x hx; cases hx
  | cons a l ih =>
    simp only [List.map_cons, List.sum_cons] at hz
    have ha : 0 ≤ f a := h a (by simp)
    have hrest : 0 ≤ (l.map f).sum := by
      apply List.sum_nonneg
      intro x hx
      obtain ⟨y, hy, rfl⟩ := List.mem_map.mp hx
      exact h y (by simp [hy])
    intro x hx
    rcases List.mem_cons.mp hx with rfl | hx2
    · omega
    · exact ih (fun y hy => h y (by simp [hy])) (by omega) x hx2

/-- A sum of nonpositive integers is zero only if every term is. -/
theorem sumMap_nonpos_eq_zero {α : Type} (l : List α) (f : α → Int)
    (h : ∀ x ∈ l, f x ≤ 0) (hz : (l.map f).sum = 0) : ∀ x ∈ l, f x = 0 := by
  have h2 : ∀ x ∈ l, 0 ≤ -(f x) := fun x hx => by have := h x hx; omega
  have hz2 : (l.map (fun x => -(f x))).sum = 0 := by rw [sumMap_neg, hz]; ring
  intro x hx
  have := sumMap_nonneg_eq_zero l _ h2 hz2 x hx
  omega

/-- Indicator sum over a list not containing the reference element. -/
theorem sum_indicator_zero (x : Node) :
    ∀ l : List Node, x ∉ l →
      (l.map (fun n => if x = n then (1 : Int) else 0)).sum = 0 := by
  intro l
  induction l with
  | nil => intro _; simp
  | cons a l ih =>
    intro hx
    have hne : x ≠ a := fun hh => hx (by simp [hh])
    simp only [List.map_cons, List.sum_cons, if_neg hne]
    rw [ih (fun hh => hx (by simp [hh]))]
    ring

/-- Indicator sum over a duplicate-free list containing the reference element. -/
theorem sum_indicator_one (x : Node) :
    ∀ l : List Node, l.Nodup → x ∈ l →
      (l.map (fun n => if x = n then (1 : Int) else 0)).sum = 1 := by
  intro l
  induction l with
  | nil => intro _ hx; cases hx
  | cons a l ih =>
    intro hnd hx
    rcases List.mem_cons.mp hx with rfl | hx2
    · simp [sum_indicator_zero x l (List.nodup_cons.mp hnd).1]
    · have hne : x ≠ a := fun hh => (List.nodup_cons.mp hnd).1 (hh ▸ hx2)
      simp only [List.map_cons, List.sum_cons, if_neg hne]
      rw [ih (List.nodup_cons.mp hnd).2 hx2]
      ring

/-- `_split_nodes_based_on_delta` computes the two sign filters of the node
list, in node order. -/
theorem splitGo_eq_filters (d : Node → Int) :
    ∀ l : List Node,
      splitGo d l
        = (l.filter (fun n => decide (d n < 0)), l.filter (fun n => decide (0 < d n))) := by
  intro l
  induction l with
  | nil => rfl
  | cons n ns ih =>
    unfold splitGo
    rw [ih]
    dsimp only
    rcases lt_trichotomy (d n) 0 with hlt | heq | hgt
    · rw [if_pos hlt, List.filter_cons, List.filter_cons,
        if_pos (show decide (d n < 0) = true by simp [hlt]),
        if_neg (show ¬decide (0 < d n) = true by simp; omega)]
    · rw [if_neg (by omega), if_neg (by omega), List.filter_cons, List.filter_cons,
        if_neg (show ¬decide (d n < 0) = true by simp; omega),
        if_neg (show ¬decide (0 < d n) = true by simp; omega)]
    · rw [if_neg (by omega), if_pos hgt, List.filter_cons, List.filter_cons,
        if_neg (show ¬decide (d n < 0) = true by simp; omega),
        if_pos (show decide (0 < d n) = true by simp [hgt])]

/-- Splitting a sum over a node list into its negative- and positive-delta
parts, when all remaining deltas are zero. -/
theorem sum_split_signs (d : Node → Int) :
    ∀ l : List Node,
      ((l.filter (fun n => decide (d n < 0))).map d).sum
        + ((l.filter (fun n => decide (0 < d n))).map d).sum
        = (l.map d).sum := by
  intro l
  induction l with
  | nil => simp
  | cons n ns ih =>
    rcases lt_trichotomy (d n) 0 with hlt | heq | hgt
    · rw [List.filter_cons, List.filter_cons,
        if_pos (show decide (d n < 0) = true by simp [hlt]),
        if_neg (show ¬decide (0 < d n) = true by simp; omega)]
      simp only [List.map_cons, List.sum_cons]
      omega
    · rw [List.filter_cons, List.filter_cons,
        if_neg (show ¬decide (d n < 0) = true by simp; omega),
        if_neg (show ¬decide (0 < d n) = true by simp; omega)]
      simp only [List.map_cons, List.sum_cons]
      omega
    · rw [List.filter_cons, List.filter_cons,
        if_neg (show ¬decide (d n < 0) = true by simp; omega),
        if_pos (show decide (0 < d n) = true by simp [hgt])]
      simp only [List.map_cons, List.sum_cons]
      omega

/-- Summing, over a duplicate-free node list, the number of edges whose tail
is each node counts every edge whose tail lies in the list exactly once. -/
theorem sum_tail_counts (l : List Node) (hnd : l.Nodup) :
    ∀ es : List Edge, (∀ e ∈ es, e.1 ∈ l) →
      (l.map (fun n => ((es.filter (fun e2 => decide (e2.1 = n))).length : Int))).sum
        = (es.length : Int) := by
  intro es
  induction es with
  | nil =>
    intro _
    rw [sumMap_congr _ _ (fun _ => (0 : Int)) (fun n _ => by simp)]
    simp
  | cons e es ih =>
    intro h
    have hes : ∀ e2 ∈ es, e2.1 ∈ l := fun e2 he2 => h e2 (List.mem_cons_of_mem _ he2)
    have hsplit : ∀ n ∈ l,
        ((List.filter (fun e2 => decide (e2.1 = n)) (e :: es)).length : Int)
          = (fun n2 => if e.1 = n2 then (1 : Int) else 0) n
            + (fun n2 => ((es.filter (fun e2 => decide (e2.1 = n2))).length : Int)) n := by
      intro n _
      by_cases he : e.1 = n
      · rw [List.filter_cons, if_pos (by simp [he])]
        simp [he]
        omega
      · rw [List.filter_cons, if_neg (by simp [he])]
        simp [he]
    rw [sumMap_congr _ _ _ hsplit, List.sum_map_add, ih hes,
      sum_indicator_one e.1 l hnd (h e (by simp))]
    simp
    omega

/-- The symmetric count for edge heads. -/
theorem sum_head_counts (l : List Node) (hnd : l.Nodup) :
    ∀ es : List Edge, (∀ e ∈ es, e.2 ∈ l) →
      (l.map (fun n => ((es.filter (fun e2 => decide (e2.2 = n))).length : Int))).sum
        = (es.length : Int) := by
  intro es
  induction es with
  | nil =>
    intro _
    rw [sumMap_congr _ _ (fun _ => (0 : Int)) (fun n _ => by simp)]
    simp
  | cons e es ih =>
    intro h
    have hes : ∀ e2 ∈ es, e2.2 ∈ l := fun e2 he2 => h e2 (List.mem_cons_of_mem _ he2)
    have hsplit : ∀ n ∈ l,
        ((List.filter (fun e2 => decide (e2.2 = n)) (e :: es)).length : Int)
          = (fun n2 => if e.2 = n2 then (1 : Int) else 0) n
            + (fun n2 => ((es.filter (fun e2 => decide (e2.2 = n2))).length : Int)) n := by
      intro n _
      by_cases he : e.2 = n
      · rw [List.filter_cons, if_pos (by simp [he])]
        simp [he]
        omega
      · rw [List.filter_cons, if_neg (by simp [he])]
        simp [he]
    rw [sumMap_congr _ _ _ hsplit, List.sum_map_add, ih hes,
      sum_indicator_one e.2 l hnd (h e (by simp))]
    simp
    omega

/-- The handshake invariant: node imbalances sum to zero over any graph whose
edge endpoints all lie in its (duplicate-free) node list. -/
theorem sum_set_delta_zero (G : Graph) (hnd : G.nodes.Nodup)
    (hwf : ∀ e ∈ G.edges, e.1 ∈ G.nodes ∧ e.2 ∈ G.nodes) :
    (G.nodes.map (set_delta G)).sum = 0 := by
  have hsplit : ∀ n ∈ G.nodes,
      set_delta G n
        = (fun n2 => (outgoing_dim G n2 : Int)) n + (fun n2 => -(incoming_dim G n2 : Int)) n := by
    intro n _
    simp [set_delta]
    ring
  rw [sumMap_congr _ _ _ hsplit, List.sum_map_add, sumMap_neg]
  have hout := sum_tail_counts G.nodes hnd G.edges (fun e he => (hwf e he).1)
  have hin := sum_head_counts G.nodes hnd G.edges (fun e he => (hwf e he).2)
  simp only [outgoing_dim, incoming_dim] at hout hin ⊢
  rw [hout, hin]
  ring

/-- One `_find_feasible` step adds the assigned amount to the deficit delta. -/
theorem ffStep_d_neq (neq pos : Node) (st : (Node → Int) × (Edge → Int)) (hne : neq ≠ pos) :
    (ffStep neq pos st).1 neq = st.1 neq + ffAmt st.1 neq pos := by
  simp [ffStep, nupdate, hne]

/-- One `_find_feasible` step subtracts the assigned amount from the surplus
delta. -/
theorem ffStep_d_pos (neq pos : Node) (st : (Node → Int) × (Edge → Int)) (hne : neq ≠ pos) :
    (ffStep neq pos st).1 pos = st.1 pos - ffAmt st.1 neq pos := by
  simp [ffStep, nupdate, Ne.symm hne]

/-- One `_find_feasible` step leaves all other deltas alone. -/
theorem ffStep_d_other (neq pos : Node) (st : (Node → Int) × (Edge → Int)) (q : Node)
    (h1 : q ≠ neq) (h2 : q ≠ pos) : (ffStep neq pos st).1 q = st.1 q := by
  simp [ffStep, nupdate, h1, h2]

/-- One `_find_feasible` step records exactly the assigned amount. -/
theorem ffStep_f_key (neq pos : Node) (st : (Node → Int) × (Edge → Int)) :
    (ffStep neq pos st).2 (neq, pos) = ffAmt st.1 neq pos := by
  simp [ffStep, fupdate]

/-- One `_find_feasible` step leaves all other feasible entries alone. -/
theorem ffStep_f_other (neq pos : Node) (st : (Node → Int) × (Edge → Int)) (e : Edge)
    (h : e ≠ (neq, pos)) : (ffStep neq pos st).2 e = st.2 e := by
  simp [ffStep, fupdate, h]

/-- The assigned amount is nonnegative between a deficit and a surplus node. -/
theorem ffAmt_nonneg (d : Node → Int) (neq pos : Node) (h1 : d neq ≤ 0) (h2 : 0 ≤ d pos) :
    0 ≤ ffAmt d neq pos := by
  unfold ffAmt
  split <;> omega

/-- The deficit delta never overshoots zero. -/
theorem ffAmt_le_neg (d : Node → Int) (neq pos : Node) (_h1 : d neq ≤ 0) (_h2 : 0 ≤ d pos) :
    d neq + ffAmt d neq pos ≤ 0 := by
  unfold ffAmt
  split <;> omega

/-- The surplus delta never undershoots zero. -/
theorem ffAmt_le_pos (d : Node → Int) (neq pos : Node) (_h1 : d neq ≤ 0) (_h2 : 0 ≤ d pos) :
    0 ≤ d pos - ffAmt d neq pos := by
  unfold ffAmt
  split <;> omega

/-- Every step zeroes one of its two deltas: the assigned amount is the
minimum of the remaining need and the remaining excess. -/
theorem ffAmt_dichotomy (d : Node → Int) (neq pos : Node) :
    d neq + ffAmt d neq pos = 0 ∨ d pos - ffAmt d neq pos = 0 := by
  unfold ffAmt
  split
  · left; omega
  · right; omega

/-- An exhausted deficit assigns nothing. -/
theorem ffAmt_of_neq_zero (d : Node → Int) (neq pos : Node) (h : d neq = 0) (h2 : 0 ≤ d pos) :
    ffAmt d neq pos = 0 := by
  unfold ffAmt
  split <;> omega

/-- An exhausted surplus assigns nothing. -/
theorem ffAmt_of_pos_zero (d : Node → Int) (neq pos : Node) (h : d pos = 0) (h1 : d neq ≤ 0) :
    ffAmt d neq pos = 0 := by
  unfold ffAmt
  split <;> omega

/-- The inner `_find_feasible` pass touches only the deficit node and the
listed surplus nodes. -/
theorem ffInner_d_other (neq : Node) :
    ∀ (ps : List Node) (st : (Node → Int) × (Edge → Int)) (q : Node),
      q ≠ neq → q ∉ ps → (ffInner neq ps st).1 q = st.1 q := by
  intro ps
  induction ps with
  | nil => intro st q _ _; rfl
  | cons p ps ih =>
    intro st q hq hqps
    simp only [ffInner]
    rw [ih (ffStep neq p st) q hq (fun hh => hqps (by simp [hh]))]
    exact ffStep_d_other neq p st q hq (fun hh => hqps (by simp [hh]))

/-- The inner `_find_feasible` pass writes only keys headed by its deficit
node and tailed by a listed surplus node. -/
theorem ffInner_f_other (neq : Node) :
    ∀ (ps : List Node) (st : (Node → Int) × (Edge → Int)) (a b : Node),
      (a ≠ neq ∨ b ∉ ps) → (ffInner neq ps st).2 (a, b) = st.2 (a, b) := by
  intro ps
  induction ps with
  | nil => intro st a b _; rfl
  | cons p ps ih =>
    intro st a b hab
    have hab2 : a ≠ neq ∨ b ∉ ps := by
      rcases hab with h | h
      · exact Or.inl h
      · exact Or.inr (fun hh => h (by simp [hh]))
    have hkey : ((a, b) : Edge) ≠ (neq, p) := by
      intro hh
      injection hh with hx hy
      rcases hab with h | h
      · exact h hx
      · exact h (by simp [hy])
    simp only [ffInner]
    rw [ih (ffStep neq p st) a b hab2]
    exact ffStep_f_other neq p st (a, b) hkey

/-- Telescoping identity for one inner pass: the recorded assignments for the
deficit node sum to its delta increase. -/
theorem ffInner_sum (neq : Node) :
    ∀ (ps : List Node), neq ∉ ps → ps.Nodup →
      ∀ st : (Node → Int) × (Edge → Int),
        (ps.map (fun p => (ffInner neq ps st).2 (neq, p))).sum
          = (ffInner neq ps st).1 neq - st.1 neq := by
  intro ps
  induction ps with
  | nil => intro _ _ st; simp [ffInner]
  | cons p ps ih =>
    intro hnp hnd st
    have hnp2 : neq ∉ ps := fun h => hnp (by simp [h])
    have hneqp : neq ≠ p := fun h => hnp (by simp [h])
    have hpps : p ∉ ps := (List.nodup_cons.mp hnd).1
    simp only [ffInner, List.map_cons, List.sum_cons]
    rw [ih hnp2 (List.nodup_cons.mp hnd).2 (ffStep neq p st)]
    have hkey : (ffInner neq ps (ffStep neq p st)).2 (neq, p) = ffAmt st.1 neq p := by
      rw [ffInner_f_other neq ps (ffStep neq p st) neq p (Or.inr hpps), ffStep_f_key]
    rw [hkey, ffStep_d_neq neq p st hneqp]
    ring

/-- Per-surplus identity for one inner pass: each listed surplus node's delta
drops by exactly its recorded assignment. -/
theorem ffInner_d_pos_each (neq : Node) :
    ∀ (ps : List Node), neq ∉ ps → ps.Nodup →
      ∀ (st : (Node → Int) × (Edge → Int)) (p : Node), p ∈ ps →
        (ffInner neq ps st).1 p = st.1 p - (ffInner neq ps st).2 (neq, p) := by
  intro ps
  induction ps with
  | nil => intro _ _ st p hp; cases hp
  | cons p0 ps ih =>
    intro hnp hnd st p hp
    have hnp2 : neq ∉ ps := fun h => hnp (by simp [h])
    have hneqp0 : neq ≠ p0 := fun h => hnp (by simp [h])
    have hp0ps : p0 ∉ ps := (List.nodup_cons.mp hnd).1
    simp only [ffInner]
    rcases List.mem_cons.mp hp with rfl | hp2
    · rw [ffInner_d_other neq ps (ffStep neq p st) p (Ne.symm hneqp0) hp0ps,
        ffInner_f_other neq ps (ffStep neq p st) neq p (Or.inr hp0ps),
        ffStep_f_key, ffStep_d_pos neq p st hneqp0]
    · have hpneq : p ≠ neq := fun h => hnp2 (h ▸ hp2)
      have hpp0 : p ≠ p0 := fun h => hp0ps (h ▸ hp2)
      rw [ih hnp2 (List.nodup_cons.mp hnd).2 (ffStep neq p0 st) p hp2,
        ffStep_d_other neq p0 st p hpneq hpp0]

/-- Sign preservation through one inner pass. -/
theorem ffInner_signs (neq : Node) :
    ∀ (ps : List Node), neq ∉ ps → ps.Nodup →
      ∀ st : (Node → Int) × (Edge → Int), st.1 neq ≤ 0 → (∀ p ∈ ps, 0 ≤ st.1 p) →
        (ffInner neq ps st).1 neq ≤ 0 ∧ ∀ p ∈ ps, 0 ≤ (ffInner neq ps st).1 p := by
  intro ps
  induction ps with
  | nil => intro _ _ st hneg _; exact ⟨hneg, by simp⟩
  | cons p0 ps ih =>
    intro hnp hnd st hneg hpos
    have hnp2 : neq ∉ ps := fun h => hnp (by simp [h])
    have hneqp0 : neq ≠ p0 := fun h => hnp (by simp [h])
    have hp0ps : p0 ∉ ps := (List.nodup_cons.mp hnd).1
    have hpos0 : 0 ≤ st.1 p0 := hpos p0 (by simp)
    have hneg2 : (ffStep neq p0 st).1 neq ≤ 0 := by
      rw [ffStep_d_neq neq p0 st hneqp0]
      exact ffAmt_le_neg st.1 neq p0 hneg hpos0
    have hpos2 : ∀ p ∈ ps, 0 ≤ (ffStep neq p0 st).1 p := by
      intro p hp
      have hpneq : p ≠ neq := fun h => hnp2 (h ▸ hp)
      have hpp0 : p ≠ p0 := fun h => hp0ps (h ▸ hp)
      rw [ffStep_d_other neq p0 st p hpneq hpp0]
      exact hpos p (by simp [hp])
    have hrec := ih hnp2 (List.nodup_cons.mp hnd).2 (ffStep neq p0 st) hneg2 hpos2
    refine ⟨by simpa [ffInner] using hrec.1, ?_⟩
    intro p hp
    simp only [ffInner]
    rcases List.mem_cons.mp hp with rfl | hp2
    · rw [ffInner_d_other neq ps (ffStep neq p st) p (Ne.symm hneqp0) hp0ps,
        ffStep_d_pos neq p st hneqp0]
      exact ffAmt_le_pos st.1 neq p hneg hpos0
    · exact hrec.2 p hp2

/-- An inner pass starting with an exhausted deficit changes no delta. -/
theorem ffInner_noop_neq_zero (neq : Node) :
    ∀ (ps : List Node) (st : (Node → Int) × (Edge → Int)),
      st.1 neq = 0 → (∀ p ∈ ps, 0 ≤ st.1 p) →
      ∀ q, (ffInner neq ps st).1 q = st.1 q := by
  intro ps
  induction ps with
  | nil => intro st _ _ q; rfl
  | cons p0 ps ih =>
    intro st hz hpos q
    have hamt : ffAmt st.1 neq p0 = 0 :=
      ffAmt_of_neq_zero st.1 neq p0 hz (hpos p0 (by simp))
    have hpt : ∀ x, (ffStep neq p0 st).1 x = st.1 x := by
      intro x
      simp only [ffStep, nupdate, hamt]
      split_ifs <;> simp_all
    simp only [ffInner]
    rw [ih (ffStep neq p0 st) (by rw [hpt]; exact hz)
      (fun p hp => by rw [hpt]; exact hpos p (by simp [hp])) q]
    exact hpt q

/-- An inner pass over exhausted surplus nodes changes no delta. -/
theorem ffInner_noop_pos_zero (neq : Node) :
    ∀ (ps : List Node) (st : (Node → Int) × (Edge → Int)),
      (∀ p ∈ ps, st.1 p = 0) → st.1 neq ≤ 0 →
      ∀ q, (ffInner neq ps st).1 q = st.1 q := by
  intro ps
  induction ps with
  | nil => intro st _ _ q; rfl
  | cons p0 ps ih =>
    intro st hz hneg q
    have hamt : ffAmt st.1 neq p0 = 0 :=
      ffAmt_of_pos_zero st.1 neq p0 (hz p0 (by simp)) hneg
    have hpt : ∀ x, (ffStep neq p0 st).1 x = st.1 x := by
      intro x
      simp only [ffStep, nupdate, hamt]
      split_ifs <;> simp_all
    simp only [ffInner]
    rw [ih (ffStep neq p0 st) (fun p hp => by rw [hpt]; exact hz p (by simp [hp]))
      (by rw [hpt]; exact hneg) q]
    exact hpt q

/-- Dichotomy for one inner pass: either the deficit is fully served, or
every listed surplus node has been drained. -/
theorem ffInner_dichotomy (neq : Node) :
    ∀ (ps : List Node), neq ∉ ps → ps.Nodup →
      ∀ st : (Node → Int) × (Edge → Int), st.1 neq ≤ 0 → (∀ p ∈ ps, 0 ≤ st.1 p) →
        ((ffInner neq ps st).1 neq = 0 ∨ ∀ p ∈ ps, (ffInner neq ps st).1 p = 0) := by
  intro ps
  induction ps with
  | nil => intro _ _ st _ _; exact Or.inr (by simp)
  | cons p0 ps ih =>
    intro hnp hnd st hneg hpos
    have hnp2 : neq ∉ ps := fun h => hnp (by simp [h])
    have hneqp0 : neq ≠ p0 := fun h => hnp (by simp [h])
    have hp0ps : p0 ∉ ps := (List.nodup_cons.mp hnd).1
    have hpos0 : 0 ≤ st.1 p0 := hpos p0 (by simp)
    have hneg2 : (ffStep neq p0 st).1 neq ≤ 0 := by
      rw [ffStep_d_neq neq p0 st hneqp0]
      exact ffAmt_le_neg st.1 neq p0 hneg hpos0
    have hpos2 : ∀ p ∈ ps, 0 ≤ (ffStep neq p0 st).1 p := by
      intro p hp
      have hpneq : p ≠ neq := fun h => hnp2 (h ▸ hp)
      have hpp0 : p ≠ p0 := fun h => hp0ps (h ▸ hp)
      rw [ffStep_d_other neq p0 st p hpneq hpp0]
      exact hpos p (by simp [hp])
    rcases ffAmt_dichotomy st.1 neq p0 with hA | hB
    · have hz : (ffStep neq p0 st).1 neq = 0 := by
        rw [ffStep_d_neq neq p0 st hneqp0]
        exact hA
      left
      simp only [ffInner]
      rw [ffInner_noop_neq_zero neq ps (ffStep neq p0 st) hz hpos2 neq]
      exact hz
    · have hzp : (ffStep neq p0 st).1 p0 = 0 := by
        rw [ffStep_d_pos neq p0 st hneqp0]
        exact hB
      rcases ih hnp2 (List.nodup_cons.mp hnd).2 (ffStep neq p0 st) hneg2 hpos2 with hL | hR
      · left
        simpa [ffInner] using hL
      · right
        intro p hp
        simp only [ffInner]
        rcases List.mem_cons.mp hp with rfl | hp2
        · rw [ffInner_d_other neq ps (ffStep neq p st) p (Ne.symm hneqp0) hp0ps]
          exact hzp
        · exact hR p hp2

/-- The outer `_find_feasible` loop leaves every node outside both lists
alone. -/
theorem ffOuter_d_other (poss : List Node) :
    ∀ (ns : List Node) (st : (Node → Int) × (Edge → Int)) (q : Node),
      q ∉ ns → q ∉ poss → (ffOuter poss ns st).1 q = st.1 q := by
  intro ns
  induction ns with
  | nil => intro st q _ _; rfl
  | cons n1 ns ih =>
    intro st q hqns hqposs
    simp only [ffOuter]
    rw [ih (ffInner n1 poss st) q (fun h => hqns (by simp [h])) hqposs]
    exact ffInner_d_other n1 poss st q (fun h => hqns (by simp [h])) hqposs

/-- The outer `_find_feasible` loop writes only keys in deficit x surplus. -/
theorem ffOuter_f_other (poss : List Node) :
    ∀ (ns : List Node) (st : (Node → Int) × (Edge → Int)) (a b : Node),
      (a ∉ ns ∨ b ∉ poss) → (ffOuter poss ns st).2 (a, b) = st.2 (a, b) := by
  intro ns
  induction ns with
  | nil => intro st a b _; rfl
  | cons n1 ns ih =>
    intro st a b hab
    have hab2 : a ∉ ns ∨ b ∉ poss := by
      rcases hab with h | h
      · exact Or.inl (fun hh => h (by simp [hh]))
      · exact Or.inr h
    have hab3 : a ≠ n1 ∨ b ∉ poss := by
      rcases hab with h | h
      · exact Or.inl (fun hh => h (by simp [hh]))
      · exact Or.inr h
    simp only [ffOuter]
    rw [ih (ffInner n1 poss st) a b hab2]
    exact ffInner_f_other n1 poss st a b hab3

/-- Telescoping identity for the whole outer loop, per deficit node. -/
theorem ffOuter_sums (poss : List Node) (hposnd : poss.Nodup) :
    ∀ (ns : List Node), ns.Nodup → (∀ n ∈ ns, n ∉ poss) →
      ∀ (st : (Node → Int) × (Edge → Int)) (n : Node), n ∈ ns →
        (poss.map (fun p => (ffOuter poss ns st).2 (n, p))).sum
          = (ffOuter poss ns st).1 n - st.1 n := by
  intro ns
  induction ns with
  | nil => intro _ _ st n hn; cases hn
  | cons n1 ns ih =>
    intro hnd hdisj st n hn
    have hn1poss : n1 ∉ poss := hdisj n1 (by simp)
    have hn1ns : n1 ∉ ns := (List.nodup_cons.mp hnd).1
    simp only [ffOuter]
    rcases List.mem_cons.mp hn with rfl | hn2
    · have hmapeq : ∀ p ∈ poss,
          (ffOuter poss ns (ffInner n poss st)).2 (n, p) = (ffInner n poss st).2 (n, p) :=
        fun p _ => ffOuter_f_other poss ns (ffInner n poss st) n p (Or.inl hn1ns)
      rw [sumMap_congr _ _ _ hmapeq, ffInner_sum n poss hn1poss hposnd st,
        ffOuter_d_other poss ns (ffInner n poss st) n hn1ns hn1poss]
    · have hne1 : n ≠ n1 := fun h => hn1ns (h ▸ hn2)
      rw [ih (List.nodup_cons.mp hnd).2 (fun x hx => hdisj x (by simp [hx]))
        (ffInner n1 poss st) n hn2,
        ffInner_d_other n1 poss st n hne1 (hdisj n (by simp [hn2]))]

/-- Per-surplus identity for the whole outer loop. -/
theorem ffOuter_pos_each (poss : List Node) (hposnd : poss.Nodup) :
    ∀ (ns : List Node), ns.Nodup → (∀ n ∈ ns, n ∉ poss) →
      ∀ (st : (Node → Int) × (Edge → Int)) (p : Node), p ∈ poss →
        (ffOuter poss ns st).1 p
          = st.1 p - (ns.map (fun n => (ffOuter poss ns st).2 (n, p))).sum := by
  intro ns
  induction ns with
  | nil => intro _ _ st p _; simp [ffOuter]
  | cons n1 ns ih =>
    intro hnd hdisj st p hp
    have hn1poss : n1 ∉ poss := hdisj n1 (by simp)
    have hn1ns : n1 ∉ ns := (List.nodup_cons.mp hnd).1
    simp only [ffOuter, List.map_cons, List.sum_cons]
    rw [ih (List.nodup_cons.mp hnd).2 (fun x hx => hdisj x (by simp [hx]))
      (ffInner n1 poss st) p hp,
      ffOuter_f_other poss ns (ffInner n1 poss st) n1 p (Or.inl hn1ns),
      ffInner_d_pos_each n1 poss hn1poss hposnd st p hp]
    ring

/-- Sign preservation through the whole outer loop. -/
theorem ffOuter_signs (poss : List Node) (hposnd : poss.Nodup) :
    ∀ (ns : List Node), ns.Nodup → (∀ n ∈ ns, n ∉ poss) →
      ∀ st : (Node → Int) × (Edge → Int),
        (∀ n ∈ ns, st.1 n ≤ 0) → (∀ p ∈ poss, 0 ≤ st.1 p) →
        (∀ n ∈ ns, (ffOuter poss ns st).1 n ≤ 0)
          ∧ (∀ p ∈ poss, 0 ≤ (ffOuter poss ns st).1 p) := by
  intro ns
  induction ns with
  | nil => intro _ _ st hneg hpos; exact ⟨hneg, hpos⟩
  | cons n1 ns ih =>
    intro hnd hdisj st hneg hpos
    have hn1poss : n1 ∉ poss := hdisj n1 (by simp)
    have hn1ns : n1 ∉ ns := (List.nodup_cons.mp hnd).1
    have hinner := ffInner_signs n1 poss hn1poss hposnd st (hneg n1 (by simp)) hpos
    have hnegs2 : ∀ n ∈ ns, (ffInner n1 poss st).1 n ≤ 0 := by
      intro n hn
      have hne1 : n ≠ n1 := fun h => hn1ns (h ▸ hn)
      rw [ffInner_d_other n1 poss st n hne1 (hdisj n (by simp [hn]))]
      exact hneg n (by simp [hn])
    have hrec := ih (List.nodup_cons.mp hnd).2 (fun x hx => hdisj x (by simp [hx]))
      (ffInner n1 poss st) hnegs2 hinner.2
    constructor
    · intro n hn
      simp only [ffOuter]
      rcases List.mem_cons.mp hn with rfl | hn2
      · rw [ffOuter_d_other poss ns (ffInner n poss st) n hn1ns hn1poss]
        exact hinner.1
      · exact hrec.1 n hn2
    · intro p hp
      simp only [ffOuter]
      exact hrec.2 p hp

/-- Once every surplus node is drained, the remaining passes change no delta. -/
theorem ffOuter_noop_pos (poss : List Node) :
    ∀ (ns : List Node) (st : (Node → Int) × (Edge → Int)),
      (∀ p ∈ poss, st.1 p = 0) → (∀ n ∈ ns, st.1 n ≤ 0) →
      ∀ q, (ffOuter poss ns st).1 q = st.1 q := by
  intro ns
  induction ns with
  | nil => intro st _ _ q; rfl
  | cons n1 ns ih =>
    intro st hz hneg q
    have hpt := ffInner_noop_pos_zero n1 poss st hz (hneg n1 (by simp))
    simp only [ffOuter]
    rw [ih (ffInner n1 poss st) (fun p hp => by rw [hpt]; exact hz p hp)
      (fun n hn => by rw [hpt]; exact hneg n (by simp [hn])) q]
    exact hpt q

/-- Grand dichotomy of the greedy assignment: at the end, either every
deficit is fully served or every surplus fully consumed. -/
theorem ffOuter_dichotomy (poss : List Node) (hposnd : poss.Nodup) :
    ∀ (ns : List Node), ns.Nodup → (∀ n ∈ ns, n ∉ poss) →
      ∀ st : (Node → Int) × (Edge → Int),
        (∀ n ∈ ns, st.1 n ≤ 0) → (∀ p ∈ poss, 0 ≤ st.1 p) →
        (∀ n ∈ ns, (ffOuter poss ns st).1 n = 0)
          ∨ (∀ p ∈ poss, (ffOuter poss ns st).1 p = 0) := by
  intro ns
  induction ns with
  | nil => intro _ _ st _ _; exact Or.inl (by simp)
  | cons n1 ns ih =>
    intro hnd hdisj st hneg hpos
    have hn1poss : n1 ∉ poss := hdisj n1 (by simp)
    have hn1ns : n1 ∉ ns := (List.nodup_cons.mp hnd).1
    have hinner := ffInner_signs n1 poss hn1poss hposnd st (hneg n1 (by simp)) hpos
    have hnegs2 : ∀ n ∈ ns, (ffInner n1 poss st).1 n ≤ 0 := by
      intro n hn
      have hne1 : n ≠ n1 := fun h => hn1ns (h ▸ hn)
      rw [ffInner_d_other n1 poss st n hne1 (hdisj n (by simp [hn]))]
      exact hneg n (by simp [hn])
    rcases ffInner_dichotomy n1 poss hn1poss hposnd st (hneg n1 (by simp)) hpos with hL | hR
    · rcases ih (List.nodup_cons.mp hnd).2 (fun x hx => hdisj x (by simp [hx]))
        (ffInner n1 poss st) hnegs2 hinner.2 with hLL | hRR
      · left
        intro n hn
        simp only [ffOuter]
        rcases List.mem_cons.mp hn with rfl | hn2
        · rw [ffOuter_d_other poss ns (ffInner n poss st) n hn1ns hn1poss]
          exact hL
        · exact hLL n hn2
      · right
        intro p hp
        simp only [ffOuter]
        exact hRR p hp
    · right
      intro p hp
      simp only [ffOuter]
      rw [ffOuter_noop_pos poss ns (ffInner n1 poss st) hR hnegs2 p]
      exact hR p hp

/-- Saturation of the greedy assignment: when total deficit equals total
surplus, every deficit node's recorded assignments sum to its full need and
every surplus node's to its full excess. -/
theorem ffOuter_saturates (neqs poss : List Node) (d0 : Node → Int) (f0 : Edge → Int)
    (h1 : neqs.Nodup) (h2 : poss.Nodup) (h3 : ∀ n ∈ neqs, n ∉ poss)
    (h4 : ∀ n ∈ neqs, d0 n ≤ 0) (h5 : ∀ p ∈ poss, 0 ≤ d0 p)
    (hsum : (neqs.map d0).sum + (poss.map d0).sum = 0) :
    (∀ n ∈ neqs, (poss.map (fun p => (ffOuter poss neqs (d0, f0)).2 (n, p))).sum = -(d0 n))
    ∧ (∀ p ∈ poss, (neqs.map (fun n => (ffOuter poss neqs (d0, f0)).2 (n, p))).sum = d0 p) := by
  have hsums := ffOuter_sums poss h2 neqs h1 h3 (d0, f0)
  have hposs := ffOuter_pos_each poss h2 neqs h1 h3 (d0, f0)
  have hsigns := ffOuter_signs poss h2 neqs h1 h3 (d0, f0) h4 h5
  dsimp only at hsums hposs
  rcases ffOuter_dichotomy poss h2 neqs h1 h3 (d0, f0) h4 h5 with hA | hB
  · have hfirst : ∀ n ∈ neqs,
        (poss.map (fun p => (ffOuter poss neqs (d0, f0)).2 (n, p))).sum = -(d0 n) := by
      intro n hn
      rw [hsums n hn, hA n hn]
      ring
    refine ⟨hfirst, ?_⟩
    have hcalc : (poss.map (fun p => (ffOuter poss neqs (d0, f0)).1 p)).sum = 0 := by
      have hpt : ∀ p ∈ poss,
          (ffOuter poss neqs (d0, f0)).1 p
            = d0 p + -((neqs.map (fun n => (ffOuter poss neqs (d0, f0)).2 (n, p))).sum) := by
        intro p hp
        rw [hposs p hp]
        ring
      rw [sumMap_congr _ _ _ hpt, List.sum_map_add, sumMap_neg, ← sumMap_swap,
        sumMap_congr neqs _ _ hfirst, sumMap_neg]
      omega
    have hzero := sumMap_nonneg_eq_zero poss _ hsigns.2 hcalc
    intro p hp
    have hpp := hposs p hp
    rw [hzero p hp] at hpp
    omega
  · have hsecond : ∀ p ∈ poss,
        (neqs.map (fun n => (ffOuter poss neqs (d0, f0)).2 (n, p))).sum = d0 p := by
      intro p hp
      have hpp := hposs p hp
      rw [hB p hp] at hpp
      omega
    refine ⟨?_, hsecond⟩
    have hcalc : (neqs.map (fun n => (ffOuter poss neqs (d0, f0)).1 n)).sum = 0 := by
      have hpt : ∀ n ∈ neqs,
          (ffOuter poss neqs (d0, f0)).1 n
            = d0 n + (poss.map (fun p => (ffOuter poss neqs (d0, f0)).2 (n, p))).sum := by
        intro n hn
        rw [hsums n hn]
        ring
      rw [sumMap_congr _ _ _ hpt, List.sum_map_add, sumMap_swap,
        sumMap_congr poss _ _ hsecond]
      omega
    have hzero := sumMap_nonpos_eq_zero neqs _ hsigns.1 hcalc
    intro n hn
    have hnn := hsums n hn
    rw [hzero n hn] at hnn
    omega

/-- Projection of `find_feasible` onto its two mutated fields. -/
theorem find_feasible_proj (neqs poss : List Node) (S : SState) :
    (find_feasible neqs poss S).feasible = (ffOuter poss neqs (S.delta, S.feasible)).2
    ∧ (find_feasible neqs poss S).delta = (ffOuter poss neqs (S.delta, S.feasible)).1 := by
  unfold find_feasible
  rcases ffOuter poss neqs (S.delta, S.feasible) with ⟨d, f⟩
  exact ⟨rfl, rfl⟩

/-- C7: after `_find_feasible` builds the initial assignment (and before any
cancellation), every deficit node's assignment amounts over the (deficit,
surplus) pairs it heads sum to the magnitude of its original deficit, and
every surplus node's amounts over the pairs it tails sum to its original
surplus — provided the graph is well formed (duplicate-free node list
containing every edge endpoint). -/
theorem find_feasible_saturates_imbalances (G : Graph)
    (hnd : G.nodes.Nodup)
    (hwf : ∀ e ∈ G.edges, e.1 ∈ G.nodes ∧ e.2 ∈ G.nodes) :
    (∀ n ∈ deficit_nodes G,
      ((surplus_nodes G).map (fun p => (initial_assignment G).feasible (n, p))).sum
        = -((initState G).delta n))
    ∧ (∀ p ∈ surplus_nodes G,
      ((deficit_nodes G).map (fun n => (initial_assignment G).feasible (n, p))).sum
        = (initState G).delta p) := by
  have hdelta : (checked_state G).delta = set_delta G :=
    (least_cost_paths_preserves G (initState G)).2.1
  have hsplit : split_nodes_based_on_delta G (checked_state G)
      = (G.nodes.filter (fun n => decide (set_delta G n < 0)),
         G.nodes.filter (fun n => decide (0 < set_delta G n))) := by
    unfold split_nodes_based_on_delta
    rw [hdelta, splitGo_eq_filters]
  have hdefs : deficit_nodes G = G.nodes.filter (fun n => decide (set_delta G n < 0)) := by
    unfold deficit_nodes
    rw [hsplit]
  have hsurs : surplus_nodes G = G.nodes.filter (fun n => decide (0 < set_delta G n)) := by
    unfold surplus_nodes
    rw [hsplit]
  have hneqnd : (G.nodes.filter (fun n => decide (set_delta G n < 0))).Nodup := hnd.filter _
  have hposnd : (G.nodes.filter (fun n => decide (0 < set_delta G n))).Nodup := hnd.filter _
  have hdisj : ∀ x ∈ G.nodes.filter (fun n => decide (set_delta G n < 0)),
      x ∉ G.nodes.filter (fun n => decide (0 < set_delta G n)) := by
    intro x hx hx2
    have h1 := (List.mem_filter.mp hx).2
    have h2 := (List.mem_filter.mp hx2).2
    simp only [decide_eq_true_eq] at h1 h2
    omega
  have h4 : ∀ n ∈ G.nodes.filter (fun n => decide (set_delta G n < 0)), set_delta G n ≤ 0 := by
    intro n hn
    have h1 := (List.mem_filter.mp hn).2
    simp only [decide_eq_true_eq] at h1
    omega
  have h5 : ∀ p ∈ G.nodes.filter (fun n => decide (0 < set_delta G n)), 0 ≤ set_delta G p := by
    intro p hp
    have h1 := (List.mem_filter.mp hp).2
    simp only [decide_eq_true_eq] at h1
    omega
  have hsum : ((G.nodes.filter (fun n => decide (set_delta G n < 0))).map (set_delta G)).sum
      + ((G.nodes.filter (fun n => decide (0 < set_delta G n))).map (set_delta G)).sum = 0 := by
    rw [sum_split_signs]
    exact sum_set_delta_zero G hnd hwf
  have hproj : (initial_assignment G).feasible
      = (ffOuter (surplus_nodes G) (deficit_nodes G)
          ((checked_state G).delta, (checked_state G).feasible)).2 :=
    (find_feasible_proj (deficit_nodes G) (surplus_nodes G) (checked_state G)).1
  have hdfpair : (((checked_state G).delta : Node → Int), (checked_state G).feasible)
      = (set_delta G, (checked_state G).feasible) := by
    rw [hdelta]
  have hsat := ffOuter_saturates
    (G.nodes.filter (fun n => decide (set_delta G n < 0)))
    (G.nodes.filter (fun n => decide (0 < set_delta G n)))
    (set_delta G) ((checked_state G).feasible)
    hneqnd hposnd hdisj h4 h5 hsum
  show (∀ n ∈ deficit_nodes G,
      ((surplus_nodes G).map
        (fun p => (initial_assignment G).feasible (n, p))).sum = -(set_delta G n))
    ∧ (∀ p ∈ surplus_nodes G,
      ((deficit_nodes G).map
        (fun n => (initial_assignment G).feasible (n, p))).sum = set_delta G p)
  rw [hproj, hdfpair, hdefs, hsurs]
  exact hsat

/-- Witness for the saturation theorem at `G1`: node t has original deficit
-2 and its assignments sum to 2; node s has original surplus 2 and its
assignments sum to 2. -/
theorem find_feasible_saturates_imbalances_witness :
    ((surplus_nodes G1).map (fun p => (initial_assignment G1).feasible ("t", p))).sum
      = -((initState G1).delta "t")
    ∧ ((deficit_nodes G1).map (fun n => (initial_assignment G1).feasible (n, "s"))).sum
      = (initState G1).delta "s" :=
  ⟨(find_feasible_saturates_imbalances G1 (by decide) (by decide)).1 "t" (by decide),
   (find_feasible_saturates_imbalances G1 (by decide) (by decide)).2 "s" (by decide)⟩
